import Mathlib

set_option maxRecDepth 4000

/-
Verification of the Courier feed-ingestion core against its design document.

The Go sources are shallowly embedded:
  * Go strings are modelled as rune sequences (`Str := List Char`);
  * `time.Duration` values are modelled as `Int` nanoseconds;
  * external collaborators (HTML parser, HTTP transport, the SQL engine)
    are modelled at their interface boundary, each model documented at its
    definition site.
-/

/-- Go strings viewed as rune sequences. -/
abbrev Str := List Char

/-- Convenience: underlying rune list of a string literal. -/
def strOf (s : String) : Str := s.data

/- ------------------------------------------------------------------ -/
/- Backoff tracker: src/cmd/fetcher/main.go lines 415-469.             -/
/- ------------------------------------------------------------------ -/

/-- One entry of `backoffTracker.items` (main.go:422-425).
`untilAt` is the deadline (`until`), `duration` the last computed delay,
both in nanoseconds. -/
structure BackoffEntry where
  untilAt : Int
  duration : Int
deriving DecidableEq, Repr

/-- The Go map `map[string]backoffEntry`, modelled as an association list
with at most one binding per key. -/
abbrev BackoffItems := List (Str × BackoffEntry)

/-- Go map read `b.items[id]`: a missing key yields the zero entry. -/
def lookupEntry (items : BackoffItems) (id : Str) : BackoffEntry :=
  match items.find? (fun p => p.1 == id) with
  | some p => p.2
  | none => ⟨0, 0⟩

/-- Go map write `b.items[id] = entry`. -/
def setEntry (items : BackoffItems) (id : Str) (e : BackoffEntry) : BackoffItems :=
  match items with
  | [] => [(id, e)]
  | p :: rest => if p.1 == id then (id, e) :: rest else p :: setEntry rest id e

/-- Go map delete `delete(b.items, id)`. -/
def deleteEntry (items : BackoffItems) (id : Str) : BackoffItems :=
  items.filter (fun p => !(p.1 == id))

/-- `backoffTracker` (main.go:415-420).  The Go field `factor` is a
`float64` equal to 2.0; every product `float64(duration) * 2.0` taken by
`Schedule` is exact in IEEE double precision for durations up to the
10-minute ceiling, so the factor is embedded as the integer 2. -/
structure BackoffTracker where
  minD : Int
  maxD : Int
  factor : Int
  items : BackoffItems

/-- `newBackoffTracker` (main.go:427-434): floor 30s, ceiling 10min, factor 2. -/
def newBackoffTracker : BackoffTracker :=
  ⟨30 * 1000000000, 600 * 1000000000, 2, []⟩

/-- `(*backoffTracker).Remaining` (main.go:436-446).  Returns the time left
and the updated tracker (an elapsed entry is deleted). -/
def backoffRemaining (b : BackoffTracker) (id : Str) (now : Int) :
    Int × BackoffTracker :=
  match b.items.find? (fun p => p.1 == id) with
  | none => (0, b)
  | some p =>
    if now > p.2.untilAt then (0, { b with items := deleteEntry b.items id })
    else (p.2.untilAt - now, b)

/-- `(*backoffTracker).Schedule` (main.go:448-465). -/
def backoffSchedule (b : BackoffTracker) (id : Str) (now suggested : Int) :
    Int × BackoffTracker :=
  let entry := lookupEntry b.items id
  let d0 :=
    if suggested ≤ 0 then
      (if entry.duration = 0 then b.minD else entry.duration * b.factor)
    else suggested
  let d := if d0 > b.maxD then b.maxD else d0
  (d, { b with items := setEntry b.items id ⟨now + d, d⟩ })

/-- `(*backoffTracker).Reset` (main.go:467-469). -/
def backoffReset (b : BackoffTracker) (id : Str) : BackoffTracker :=
  { b with items := deleteEntry b.items id }

/-- The tracker parameters installed by `newBackoffTracker`. -/
def defaultParams (b : BackoffTracker) : Prop :=
  b.minD = 30 * 1000000000 ∧ b.maxD = 600 * 1000000000 ∧ b.factor = 2

instance (b : BackoffTracker) : Decidable (defaultParams b) := by
  unfold defaultParams; infer_instance

/- ------------------------------------------------------------------ -/
/- Content fingerprinter: src/internal/item/item.go lines 20-27.       -/
/- ------------------------------------------------------------------ -/

/-- The single separator byte 0 written after every part (item.go:24). -/
def nulSep : Char := Char.ofNat 0

/-- Byte stream fed to the SHA-256 digest by `HashContent` (item.go:20-27):
every part is written followed by the separator byte.  SHA-256 itself is an
external primitive and is a function of this stream, so questions about
two tuples producing the same digest input are settled at the stream
level. -/
def hashStream (parts : List Str) : Str :=
  match parts with
  | [] => []
  | p :: rest => p ++ nulSep :: hashStream rest

/- ------------------------------------------------------------------ -/
/- Batch flush: src/cmd/fetcher/main.go lines 141-166 and 263-270.     -/
/- ------------------------------------------------------------------ -/

/-- `upsertDocumentsIndividually` (main.go:263-270), with the indexer
modelled as a per-document success oracle.  Returns the number of leading
documents confirmed before the first failure, and whether every document of
the slice succeeded (`error == nil`). -/
def upsertIndividually {α : Type} (oneOk : α → Bool) : List α → Nat × Bool
  | [] => (0, true)
  | d :: ds =>
    if oneOk d then
      let r := upsertIndividually oneOk ds
      (r.1 + 1, r.2)
    else (0, false)

/-- The flush loop of `run` (main.go:141-165), with the indexer modelled by
a bulk-success oracle and a per-document oracle.  The result is the pair
(documents confirmed indexed, documents dropped after an individual
failure), each in original order.  The first argument is recursion fuel;
each iteration of the Go loop removes at least one pending document, so
`pending.length` fuel suffices (see `flushLoopF_fuel`).  `run` only
executes with a positive batch size (main.go:35-42), which `max bs 1`
records; the `[]` arm of the inner match is unreachable because an
individual failure leaves the failing document pending. -/
def flushLoopF {α : Type} (bs : Nat) (bulkOk : List α → Bool) (oneOk : α → Bool) :
    Nat → List α → List α × List α
  | _, [] => ([], [])
  | 0, _ :: _ => ([], [])
  | fuel + 1, d :: pending0 =>
    let pending := d :: pending0
    let cs := min (max bs 1) pending.length
    let chunk := pending.take cs
    if bulkOk chunk then
      let r := flushLoopF bs bulkOk oneOk fuel (pending.drop cs)
      (chunk ++ r.1, r.2)
    else
      let f := upsertIndividually oneOk chunk
      if f.2 then
        let r := flushLoopF bs bulkOk oneOk fuel (pending.drop cs)
        (chunk ++ r.1, r.2)
      else
        match pending.drop f.1 with
        | [] => (chunk.take f.1, [])
        | x :: rest2 =>
          let r := flushLoopF bs bulkOk oneOk fuel rest2
          (chunk.take f.1 ++ r.1, x :: r.2)

/-- The tick-end flush of the pending queue (main.go:141-165). -/
def flushLoop {α : Type} (bs : Nat) (bulkOk : List α → Bool) (oneOk : α → Bool)
    (pending : List α) : List α × List α :=
  flushLoopF bs bulkOk oneOk pending.length pending

/- ------------------------------------------------------------------ -/
/- Conditional fetcher: src/internal/feed/fetch.go, and the per-feed   -/
/- error path of FetchFeed: src/cmd/fetcher/main.go lines 300-347.     -/
/- ------------------------------------------------------------------ -/

/-- Identity of the sentinel error carried by a failed fetch:
`feed.ErrRetryLater`, `feed.ErrTransientFetch` (the wrapping via
`fmt.Errorf("%w: ...")` preserves `errors.Is` identity), or any other
error (request building, unexpected status, parse failure). -/
inductive FetchErrKind where
  | retryLater
  | transientFetch
  | otherErr
deriving DecidableEq, Repr

/-- Wire-level outcome of the single HTTP exchange done by
`(*Fetcher).Fetch` (fetch.go:37-106), at the boundary of net/http: either
the transport fails (`isTransientFetchError`, fetch.go:157-181, inspects
opaque `net.Error`/syscall values, so its verdict is the model input), or
a response arrives with a status, a Retry-After header, and a body that
either parses as a feed or does not. -/
inductive WireOutcome where
  | netError (transient : Bool)
  | response (status : Int) (retryAfterHeader : Str) (parseOk : Bool)
deriving Repr

/-- `isRateLimited` (fetch.go:121-123). -/
def isRateLimited (status : Int) : Bool := status == 429

/-- `isTransientStatus` (fetch.go:125-135). -/
def isTransientStatus (status : Int) : Bool :=
  status == 408 || status == 500 || status == 502 || status == 503 || status == 504

/-- Value of a decimal digit string. -/
def digitsVal (s : Str) : Int :=
  s.foldl (fun acc c => acc * 10 + ((c.toNat : Int) - 48)) 0

/-- `parseRetryAfter` (fetch.go:137-151), in nanoseconds, restricted to
the integer-seconds form of the header: the HTTP-date form reads the wall
clock (`time.Until`) and is outside the model (no claim exercises it);
signed and overflowing numerals are likewise left to the unparsable
branch, which yields 0 exactly as the source does. -/
def parseRetryAfter (header : Str) : Int :=
  if !header.isEmpty && header.all Char.isDigit then digitsVal header * 1000000000
  else 0

/-- Classification result of `Fetch`: the fields of `feed.Result` consumed
by `FetchFeed` (status, suggested retry delay, presence of a parsed feed). -/
structure FetchResultM where
  status : Int
  retryAfter : Int
  hasFeed : Bool
deriving DecidableEq, Repr

/-- Response classification of `(*Fetcher).Fetch` (fetch.go:49-106):
transport errors keep the zero `Result`; 304 is a success; transient
statuses return `ErrTransientFetch` with a parsed Retry-After; 429 returns
`ErrRetryLater` with a parsed Retry-After; other non-200 statuses and
parse failures are plain errors. -/
def fetchClassify (w : WireOutcome) : FetchResultM × Option FetchErrKind :=
  match w with
  | .netError transient =>
    (⟨0, 0, false⟩, some (if transient then .transientFetch else .otherErr))
  | .response status retryAfterHeader parseOk =>
    if status == 304 then (⟨304, 0, false⟩, none)
    else if !(status == 200) then
      (if isTransientStatus status then
        (⟨status, parseRetryAfter retryAfterHeader, false⟩, some .transientFetch)
      else if isRateLimited status then
        (⟨status, parseRetryAfter retryAfterHeader, false⟩, some .retryLater)
      else (⟨status, 0, false⟩, some .otherErr))
    else
      if parseOk then (⟨status, 0, true⟩, none)
      else (⟨status, 0, false⟩, some .otherErr)

/-- Observable outcome of the prefix of `FetchFeed` (main.go:300-347):
everything up to and including the not-modified / no-content checks.
`proceeded` records that control reached the crawl-state update at
main.go:349, i.e. the source was not terminal at this stage. -/
structure FetchFeedStep where
  status : Int
  errKind : Option FetchErrKind
  backoffActive : Bool
  retryIn : Int
  skipped : Bool
  reason : Str
  proceeded : Bool
deriving DecidableEq, Repr

/-- The per-source gate and fetch-error handling of `FetchFeed`
(main.go:300-347): skip while a backoff window is active; on fetch error
schedule a backoff only for `ErrRetryLater` (main.go:325-331); on success
reset the backoff and fall through 304 / missing-feed checks. -/
def fetchFeedErrPath (b : BackoffTracker) (fid : Str) (now : Int)
    (w : WireOutcome) : FetchFeedStep × BackoffTracker :=
  let rem := backoffRemaining b fid now
  if rem.1 > 0 then
    (⟨0, none, true, rem.1, true, strOf "backoff active", false⟩, rem.2)
  else
    let c := fetchClassify w
    match c.2 with
    | some k =>
      if k = FetchErrKind.retryLater then
        let s := backoffSchedule rem.2 fid now c.1.retryAfter
        (⟨c.1.status, some k, false, s.1, false, strOf "retry scheduled", false⟩, s.2)
      else
        (⟨c.1.status, some k, false, 0, false, strOf "fetch failed", false⟩, rem.2)
    | none =>
      let b2 := backoffReset rem.2 fid
      if c.1.status == 304 then
        (⟨c.1.status, none, false, 0, true, strOf "not modified", false⟩, b2)
      else if !c.1.hasFeed then
        (⟨c.1.status, none, false, 0, true, strOf "no content", false⟩, b2)
      else
        (⟨c.1.status, none, false, 0, false, [], true⟩, b2)

/- ------------------------------------------------------------------ -/
/- Repository upsert: src/db/queries/items.sql (UpsertItem) against    -/
/- the items table of src/db/migrations, and the per-item loop of      -/
/- FetchFeed: src/cmd/fetcher/main.go lines 369-405.                   -/
/- ------------------------------------------------------------------ -/

/-- One row of the `items` table (db/migrations/0001_init.sql), restricted
to the columns the upsert control flow reads; `rid` is a surrogate for the
UUID primary key. -/
structure ItemRow where
  rid : Nat
  feedId : Str
  guid : Option Str
  url : Str
  title : Str
  contentText : Str
  hash : Str
deriving DecidableEq, Repr

/-- `store.UpsertItemParams` restricted to the same columns. -/
structure UpsertParamsM where
  feedId : Str
  guid : Option Str
  url : Str
  title : Str
  contentText : Str
  hash : Str
deriving DecidableEq, Repr

/-- The unique-index key `(feed_id, COALESCE(guid, url))` of
`items_identity_uniq` (db/migrations/0002_indexes.sql). -/
def identityKey (feedId : Str) (guid : Option Str) (url : Str) : Str × Str :=
  (feedId, guid.getD url)

/-- Row predicate of the `existing` CTE (items.sql:2-10).  SQL `=` against
a NULL operand is not true, so a row matches only by equal non-NULL guids,
or by equal URL when the parameter guid and the row guid are both NULL. -/
def existingMatch (p : UpsertParamsM) (r : ItemRow) : Bool :=
  r.feedId == p.feedId &&
    (match p.guid, r.guid with
     | some g, some rg => rg == g
     | none, none => r.url == p.url
     | _, _ => false)

/-- The `existing` CTE (items.sql:2-10), evaluated on the pre-statement
table snapshot. -/
def existingLookup (t : List ItemRow) (p : UpsertParamsM) : Option ItemRow :=
  t.find? (existingMatch p)

/-- Conflict detection of `ON CONFLICT (feed_id, COALESCE(guid, url))`
(items.sql:34): the row, if any, sharing the unique-index key. -/
def conflictLookup (t : List ItemRow) (p : UpsertParamsM) : Option ItemRow :=
  t.find? (fun r =>
    decide (identityKey r.feedId r.guid r.url = identityKey p.feedId p.guid p.url))

/-- Result of UpsertItem as consumed by FetchFeed: the returned row,
`inserted` (the `xmax = 0` flag) and `indexed`
(`u.inserted OR e.content_hash IS DISTINCT FROM u.content_hash`,
items.sql:66). -/
structure UpsertResultM where
  row : ItemRow
  inserted : Bool
  indexed : Bool
deriving DecidableEq, Repr

/-- `UpsertItem` (items.sql:1-72) against an in-memory table constrained
by `items_identity_uniq`: insert when no row shares the identity key,
otherwise update that row in place (`DO UPDATE SET` rewrites every listed
column but keeps `guid` and `feed_id`, items.sql:34-42).  `indexed` left
joins the pre-statement `existing` row on the upserted row id; a missing
join partner makes `IS DISTINCT FROM` true because `content_hash` is NOT
NULL.  An update that would move the row onto another row's unique key
raises a unique violation, returned as `none` with the table unchanged
(transaction rollback). -/
def upsertItemModel (t : List ItemRow) (nextId : Nat) (p : UpsertParamsM) :
    Option UpsertResultM × List ItemRow × Nat :=
  match conflictLookup t p with
  | none =>
    let row : ItemRow :=
      ⟨nextId, p.feedId, p.guid, p.url, p.title, p.contentText, p.hash⟩
    (some ⟨row, true, true⟩, t ++ [row], nextId + 1)
  | some c =>
    let row : ItemRow :=
      { c with url := p.url, title := p.title,
               contentText := p.contentText, hash := p.hash }
    if t.any (fun r => decide (r.rid ≠ c.rid ∧
        identityKey r.feedId r.guid r.url =
          identityKey row.feedId row.guid row.url)) then
      (none, t, nextId)
    else
      let ejoin : Option ItemRow :=
        match existingLookup t p with
        | some e => if e.rid = c.rid then some e else none
        | none => none
      let indexed :=
        match ejoin with
        | none => true
        | some e => !(e.hash == p.hash)
      (some ⟨row, false, indexed⟩,
        t.map (fun r => if r.rid == c.rid then row else r), nextId)

/-- `search.Document` as populated at main.go:389-396, restricted to the
fields copied from the upserted row (the feed title and the timestamp
play no part in the claims). -/
structure DocM where
  rid : Nat
  feedId : Str
  title : Str
  contentText : Str
  url : Str
deriving DecidableEq, Repr

/-- The per-item loop of `FetchFeed` (main.go:370-402), over already
derived and URL-canonicalized upsert parameters.  `repo.UpsertItem` is the
SQL model above; the `fail` oracle stands for transport-level errors.  A
failed upsert is recorded and skipped (`continue`), and a document is
appended exactly when the result reports `Indexed` (main.go:386-401). -/
def processItems (fail : UpsertParamsM → Bool) :
    List ItemRow → Nat → List UpsertParamsM → List DocM × List ItemRow × Nat
  | t, nid, [] => ([], t, nid)
  | t, nid, p :: ps =>
    if fail p then processItems fail t nid ps
    else
      match upsertItemModel t nid p with
      | (none, t2, nid2) => processItems fail t2 nid2 ps
      | (some res, t2, nid2) =>
        let rest := processItems fail t2 nid2 ps
        if res.indexed then
          (⟨res.row.rid, res.row.feedId, res.row.title,
            res.row.contentText, res.row.url⟩ :: rest.1, rest.2)
        else rest

/-- Spec-side reading of "changed", from the claim's words: the entry is
newly inserted (no previously stored row for its identity), or the content
fingerprint previously stored for that identity differs from the new
one. -/
def specChanged (t : List ItemRow) (p : UpsertParamsM) : Bool :=
  match conflictLookup t p with
  | none => true
  | some c => !(c.hash == p.hash)

/-- Spec-side reading of the amended claim: newly inserted, or no previous
row matches the entry's guid exactly (its URL when both guids are absent),
or the exactly-matched row's fingerprint differs. -/
def amendedChanged (t : List ItemRow) (p : UpsertParamsM) : Bool :=
  match conflictLookup t p with
  | none => true
  | some _ =>
    match existingLookup t p with
    | none => true
    | some e => !(e.hash == p.hash)

/-- Spec-side document pipeline for the amended claim: identical state
threading through the repository, but the indexing gate is
`amendedChanged`, computed from the spec words rather than from the SQL
join. -/
def specDocs (fail : UpsertParamsM → Bool) :
    List ItemRow → Nat → List UpsertParamsM → List DocM
  | _, _, [] => []
  | t, nid, p :: ps =>
    if fail p then specDocs fail t nid ps
    else
      match upsertItemModel t nid p with
      | (none, t2, nid2) => specDocs fail t2 nid2 ps
      | (some res, t2, nid2) =>
        if amendedChanged t p then
          ⟨res.row.rid, res.row.feedId, res.row.title,
            res.row.contentText, res.row.url⟩ :: specDocs fail t2 nid2 ps
        else specDocs fail t2 nid2 ps

/-- Well-formedness of the `items` table: the `items_identity_uniq` unique
index holds (no two rows share an identity key) and the primary key is a
key (no two rows share a row id). -/
def tableWF (t : List ItemRow) : Prop :=
  t.Pairwise (fun r s =>
    identityKey r.feedId r.guid r.url ≠ identityKey s.feedId s.guid s.url ∧
      r.rid ≠ s.rid)

/-- Repository invariant: a well-formed table whose row ids are all below
the next fresh id. -/
def repoWF (t : List ItemRow) (nid : Nat) : Prop :=
  tableWF t ∧ ∀ r ∈ t, r.rid < nid

/- ------------------------------------------------------------------ -/
/- HTML sanitizer: src/internal/item/htmlclean/clean.go, and the       -/
/- sibling sanitizeHTML of src/internal/item/item.go lines 98-148.     -/
/- ------------------------------------------------------------------ -/

/-- Whitespace predicate of `unicode.IsSpace` restricted to Latin-1
(space, tab, newline, vertical tab, form feed, carriage return, NEL,
no-break space); all the repository's whitespace handling goes through
`strings.Fields`/`strings.TrimSpace`, which use it. -/
def goIsSpace (c : Char) : Bool :=
  c = ' ' || c = '\t' || c = '\n' || c = '\x0b' || c = '\x0c' || c = '\r' ||
    c = Char.ofNat 133 || c = Char.ofNat 160

/-- `strings.TrimSpace`. -/
def goTrimSpace (s : Str) : Str :=
  ((s.dropWhile goIsSpace).reverse.dropWhile goIsSpace).reverse

/-- `strings.Fields`: maximal runs of non-whitespace runes. -/
def fieldsGo (s : Str) : List Str :=
  (s.splitOnP goIsSpace).filter (fun w => !w.isEmpty)

/-- `collapseWhitespace` (clean.go:66-68 and item.go:133-135):
`strings.Join(strings.Fields(strings.TrimSpace(s)), " ")` — the inner
TrimSpace is redundant because Fields already discards surrounding
whitespace. -/
def collapseWhitespace (s : Str) : Str :=
  List.intercalate (strOf " ") (fieldsGo s)

/-- ASCII case folding of `strings.ToLower` (every name it is applied to
in the embedded code — element names, schemes, hosts, query keys — is
compared against ASCII constants). -/
def toLowerChar (c : Char) : Char :=
  if 'A' ≤ c ∧ c ≤ 'Z' then Char.ofNat (c.toNat + 32) else c

/-- `strings.ToLower`, ASCII model. -/
def lowerStr (s : Str) : Str := s.map toLowerChar

/-- Model of stdlib `html.UnescapeString` covering the basic named
entities the repository's tests exercise; other ampersand sequences pass
through unchanged.  (The full stdlib table is external library behaviour; no
claim depends on entities beyond these.) -/
def unescapeHTML : Str → Str
  | [] => []
  | '&' :: 'a' :: 'm' :: 'p' :: ';' :: rest => '&' :: unescapeHTML rest
  | '&' :: 'l' :: 't' :: ';' :: rest => '<' :: unescapeHTML rest
  | '&' :: 'g' :: 't' :: ';' :: rest => '>' :: unescapeHTML rest
  | '&' :: 'q' :: 'u' :: 'o' :: 't' :: ';' :: rest => '"' :: unescapeHTML rest
  | '&' :: 'n' :: 'b' :: 's' :: 'p' :: ';' :: rest =>
    Char.ofNat 160 :: unescapeHTML rest
  | c :: rest => c :: unescapeHTML rest

/-- `cleanupPunctuation` (clean.go:70-81 and item.go:137-148): the
`strings.Replacer` built from the six pairs scans left to right, replaces
a matched two-rune pattern and continues after it, never rescanning
emitted output. -/
def cleanupPunctuation : Str → Str
  | [] => []
  | ' ' :: c :: rest =>
    if c = '!' || c = '?' || c = ',' || c = '.' || c = ';' || c = ':' then
      c :: cleanupPunctuation rest
    else ' ' :: cleanupPunctuation (c :: rest)
  | c :: rest => c :: cleanupPunctuation rest

/-- Parse tree of golang.org/x/net/html (external library): element nodes
with children, and text nodes.  Document, doctype and comment nodes
behave in `walk` exactly like an element with a non-script non-style
name, so they are represented as such.  `xhtml.Parse` itself is external;
theorems quantify over the tree, and each concrete example fixes the tree
the library produces for its fragment. -/
inductive HNode where
  | elem (name : Str) (children : List HNode)
  | text (s : Str)

mutual

/-- `walk` (clean.go:39-64; the identical nested `walk` of item.go
lines 108-129): skip script/style subtrees entirely; for a text node,
collapse the unescaped text and, when non-empty, append it to the builder
with a single joining space whenever the builder is non-empty. -/
def walkNode : HNode → Str → Str
  | HNode.elem name children, acc =>
    if lowerStr name = strOf "script" ∨ lowerStr name = strOf "style" then acc
    else walkNodes children acc
  | HNode.text s, acc =>
    let t := collapseWhitespace (unescapeHTML s)
    if t = [] then acc
    else if acc = [] then t else acc ++ ' ' :: t

/-- The child loop of `walk`. -/
def walkNodes : List HNode → Str → Str
  | [], acc => acc
  | n :: ns, acc => walkNodes ns (walkNode n acc)

end

/-- `truncate` (clean.go:83-100): no-op for non-positive max or within
bounds; otherwise trim the first `max` runes, keeping the untrimmed slice
when trimming would empty it. -/
def truncateR (s : Str) (m : Int) : Str :=
  if m ≤ 0 then s
  else if (s.length : Int) ≤ m then s
  else
    let t := goTrimSpace (s.take m.toNat)
    if t = [] then s.take m.toNat else t

/-- `CleanHTML` (clean.go:16-37), with the external `xhtml.Parse` passed
as an oracle from fragments to trees (`none` models a parse error). -/
def cleanHTML (parse : Str → Option HNode) (input : Str) (maxLen : Int) : Str :=
  let trimmed := goTrimSpace input
  if trimmed = [] then []
  else
    let m := if maxLen ≤ 0 then 2048 else maxLen
    match parse trimmed with
    | none =>
      truncateR (cleanupPunctuation (collapseWhitespace (unescapeHTML trimmed))) m
    | some node =>
      truncateR (cleanupPunctuation (collapseWhitespace (walkNode node []))) m

/-- `sanitizeHTML` (item.go:98-131): same walk, no truncation, a second
unescape pass over the whole builder, and a plain collapse fallback on
parse errors. -/
def sanitizeHTML (parse : Str → Option HNode) (input : Str) : Str :=
  let trimmed := goTrimSpace input
  if trimmed = [] then []
  else
    match parse trimmed with
    | none => collapseWhitespace trimmed
    | some node =>
      cleanupPunctuation (collapseWhitespace (unescapeHTML (walkNode node [])))

/-- The tree `xhtml.Parse` produces for the fragment
`<p>Hello <strong>world</strong>!<script>bad()</script></p>`
(document → html → head, body → p → ...). -/
def exampleTree : HNode :=
  HNode.elem [] [HNode.elem (strOf "html")
    [HNode.elem (strOf "head") [],
     HNode.elem (strOf "body")
       [HNode.elem (strOf "p")
         [HNode.text (strOf "Hello "),
          HNode.elem (strOf "strong") [HNode.text (strOf "world")],
          HNode.text (strOf "!"),
          HNode.elem (strOf "script") [HNode.text (strOf "bad()")]]]]]

/-- The tree `xhtml.Parse` produces for
`<strong>Hello</strong><em>world</em>`: two sibling inline elements. -/
def inlineTree : HNode :=
  HNode.elem [] [HNode.elem (strOf "html")
    [HNode.elem (strOf "head") [],
     HNode.elem (strOf "body")
       [HNode.elem (strOf "strong") [HNode.text (strOf "Hello")],
        HNode.elem (strOf "em") [HNode.text (strOf "world")]]]]

mutual

/-- Spec-side view for C9: the collapsed non-empty text segments of a
tree, in document order, outside script/style subtrees. -/
def textsOf : HNode → List Str
  | HNode.elem name children =>
    if lowerStr name = strOf "script" ∨ lowerStr name = strOf "style" then []
    else textsOfList children
  | HNode.text s =>
    let t := collapseWhitespace (unescapeHTML s)
    if t = [] then [] else [t]

/-- `textsOf` over a forest. -/
def textsOfList : List HNode → List Str
  | [] => []
  | n :: ns => textsOf n ++ textsOfList ns

end

/-- Texts joined with exactly one space between consecutive segments. -/
def joinTexts : List Str → Str
  | [] => []
  | [t] => t
  | t :: ts => t ++ ' ' :: joinTexts ts

/-- `joinTexts` continued from an already-built accumulator. -/
def joinAcc (acc : Str) (ts : List Str) : Str :=
  if ts = [] then acc
  else if acc = [] then joinTexts ts
  else acc ++ ' ' :: joinTexts ts

/-- The parse oracle pinned at the documentation example. -/
def exampleParse : Str → Option HNode := fun t =>
  if t = strOf "<p>Hello <strong>world</strong>!<script>bad()</script></p>" then
    some exampleTree
  else none

/- ------------------------------------------------------------------ -/
/- URL canonicalizers: src/internal/item/urlcanon/normalize.go and the -/
/- item module's own normalizeURL (src/internal/item/item.go lines     -/
/- 150-194), over a model of the slice of net/url they use.            -/
/- ------------------------------------------------------------------ -/

/-- Scheme characters accepted by net/url (RFC 3986). -/
def schemeChar (c : Char) : Bool :=
  c.isAlpha || c.isDigit || c = '+' || c = '-' || c = '.'

/-- Parsed absolute URL: the `url.URL` fields read and written by the two
normalizers.  `host` is the hostname (brackets and port already split off,
as `Hostname()` and `Port()` return them); `hasQuery` records a present
`?`, so `ForceQuery` is `hasQuery` with an empty `rawQuery`. -/
structure GoURL where
  scheme : Str
  host : Str
  port : Str
  path : Str
  hasQuery : Bool
  rawQuery : Str
  fragment : Str
deriving DecidableEq, Repr

/-- `Hostname()`/`Port()` splitting with net/url's port validation: a
bracketed host is `[h]` optionally followed by `:digits`; otherwise
everything after the last colon must be digits (possibly none), and a
non-bracketed host may not itself contain a colon. -/
def splitHostPort (a : Str) : Option (Str × Str) :=
  match a with
  | '[' :: rest =>
    let h := rest.takeWhile (fun c => !(c = ']'))
    match rest.drop h.length with
    | ']' :: [] => some (h, [])
    | ']' :: ':' :: p => if p.all Char.isDigit then some (h, p) else none
    | _ => none
  | _ =>
    if a.contains ':' then
      let p := (a.reverse.takeWhile (fun c => !(c = ':'))).reverse
      let h := a.take (a.length - p.length - 1)
      if h.contains ':' then none
      else if p.all Char.isDigit then some (h, p) else none
    else some (a, [])

/-- Model of `url.Parse` restricted to absolute `scheme://authority...`
URLs — the shapes the repository feeds through its normalizers.  `none`
covers parse errors, relative references (empty scheme, which the Go code
also sends to the "return the input unchanged" branch) and the forms this
model leaves out: opaque URLs, userinfo, percent-escapes, and embedded
whitespace. -/
def parseURL (t : Str) : Option GoURL :=
  if t.any (fun c => goIsSpace c || c = '%') then none
  else
    let sch := t.takeWhile schemeChar
    match sch.head? with
    | none => none
    | some c0 =>
      if !c0.isAlpha then none
      else
        match t.drop sch.length with
        | ':' :: '/' :: '/' :: rest1 =>
          let auth := rest1.takeWhile (fun c => !(c = '/' || c = '?' || c = '#'))
          if auth.isEmpty || auth.contains '@' then none
          else
            match splitHostPort auth with
            | none => none
            | some (h, p) =>
              let rest2 := rest1.drop auth.length
              let path := rest2.takeWhile (fun c => !(c = '?' || c = '#'))
              match rest2.drop path.length with
              | '?' :: r =>
                let q := r.takeWhile (fun c => !(c = '#'))
                let frag :=
                  match r.drop q.length with
                  | '#' :: f => f
                  | _ => []
                some ⟨sch, h, p, path, true, q, frag⟩
              | '#' :: f => some ⟨sch, h, p, path, false, [], f⟩
              | _ => some ⟨sch, h, p, path, false, [], []⟩
        | _ => none

/-- Query-component unescaping restricted to `+` → space (the parser
refuses strings containing `%`, so percent-escapes never reach it). -/
def unplus (s : Str) : Str := s.map (fun c => if c = '+' then ' ' else c)

/-- Split on a separator rune, keeping empty segments
(`strings.Split` / the segment view of a path). -/
def splitOnChar (sep : Char) : Str → List Str
  | [] => [] :: []
  | c :: rest =>
    let r := splitOnChar sep rest
    if c = sep then [] :: r
    else
      match r with
      | [] => (c :: []) :: []
      | w :: ws => (c :: w) :: ws

/-- `url.Values` parsing as done by `Query()` (ParseQuery with errors
ignored): split on `&`, skip empty parts and parts containing `;`, split
each part at the first `=`, unescape key and value. -/
def parseQueryModel (raw : Str) : List (Str × Str) :=
  (splitOnChar '&' raw).filterMap (fun part =>
    if part.isEmpty || part.contains ';' then none
    else
      let k := part.takeWhile (fun c => !(c = '='))
      let v :=
        match part.drop k.length with
        | '=' :: rest => rest
        | _ => []
      some (unplus k, unplus v))

/-- Strict byte-wise (rune-wise) lexicographic order on keys, as
`sort.Strings` compares them in `Values.Encode`. -/
def lexLt : Str → Str → Bool
  | [], [] => false
  | [], _ :: _ => true
  | _ :: _, [] => false
  | a :: as, b :: bs => if a < b then true else if b < a then false else lexLt as bs

/-- Stable insertion of a pair into a key-sorted pair list. -/
def insertPair (x : Str × Str) : List (Str × Str) → List (Str × Str)
  | [] => x :: []
  | y :: ys => if lexLt y.1 x.1 then y :: insertPair x ys else x :: y :: ys

/-- Stable sort by key: `Values.Encode` emits keys in sorted order and,
for one key, values in insertion order — exactly a stable sort of the
flat pair list. -/
def sortPairs : List (Str × Str) → List (Str × Str)
  | [] => []
  | x :: xs => insertPair x (sortPairs xs)

/-- Unreserved characters of `url.QueryEscape`. -/
def isUnreservedQ (c : Char) : Bool :=
  c.isAlpha || c.isDigit || c = '-' || c = '_' || c = '.' || c = '~'

/-- Upper-case hex digit. -/
def hexDigit (n : Nat) : Char :=
  if n < 10 then Char.ofNat (48 + n) else Char.ofNat (55 + n)

/-- `url.QueryEscape` of one rune: unreserved runes pass, space becomes
`+`, anything else is percent-escaped (for non-ASCII runes the model
escapes the low byte; any escape produced makes the re-parse of the whole
URL bail out, so only the presence of `%` matters downstream). -/
def escapeChar (c : Char) : Str :=
  if isUnreservedQ c then c :: []
  else if c = ' ' then '+' :: []
  else '%' :: hexDigit (c.toNat % 256 / 16) :: hexDigit (c.toNat % 16) :: []

/-- `url.QueryEscape`. -/
def queryEscape (s : Str) : Str := s.foldr (fun c acc => escapeChar c ++ acc) []

/-- One `key=value` pair as `Values.Encode` emits it. -/
def encodePair (kv : Str × Str) : Str :=
  queryEscape kv.1 ++ '=' :: queryEscape kv.2

/-- `url.Values.Encode`: sorted stable by key, pairs joined with `&`. -/
def encodeQuery (q : List (Str × Str)) : Str :=
  List.intercalate (strOf "&") ((sortPairs q).map encodePair)

/-- Segment processing of Go `path.Clean`: skip empty and `.` segments,
`..` pops a pushed segment, is dropped at the root of a rooted path, and
accumulates at the front of an unrooted path. -/
def cleanSegs (acc : List Str) (segs : List Str) (rooted : Bool) : List Str :=
  match segs with
  | [] => acc.reverse
  | s :: rest =>
    if s.isEmpty || s = strOf "." then cleanSegs acc rest rooted
    else if s = strOf ".." then
      match acc with
      | [] =>
        if rooted then cleanSegs [] rest rooted
        else cleanSegs (strOf ".." :: []) rest rooted
      | a :: acc2 =>
        if a = strOf ".." then cleanSegs (s :: acc) rest rooted
        else cleanSegs acc2 rest rooted
    else cleanSegs (s :: acc) rest rooted

/-- Go `path.Clean` via segments (equivalent to the lazybuf scan). -/
def pathClean (p : Str) : Str :=
  if p.isEmpty then strOf "."
  else
    let rooted := p.head? = some '/'
    let out := cleanSegs [] (splitOnChar '/' p) rooted
    if rooted then '/' :: List.intercalate (strOf "/") out
    else if out.isEmpty then strOf "."
    else List.intercalate (strOf "/") out

/-- `net.JoinHostPort`. -/
def joinHostPort (h p : Str) : Str :=
  if h.contains ':' then '[' :: h ++ ']' :: ':' :: p else h ++ ':' :: p

/-- `strings.TrimSuffix(s, "/")`. -/
def trimSuffixSlash (s : Str) : Str :=
  if s.getLast? = some '/' then s.dropLast else s

/-- The tracking-parameter blocklist of urlcanon (normalize.go:10-16 and
73-76): `utm_`-prefixed names and the fixed set, on the lowercased name. -/
def isTrackingKey (k : Str) : Bool :=
  (strOf "utm_").isPrefixOf k || k = strOf "fbclid" || k = strOf "gclid" ||
    k = strOf "gclsrc" || k = strOf "mc_cid" || k = strOf "mc_eid"

/-- The item module's own blocklist (item.go:182-186): like urlcanon's but
without `gclsrc`. -/
def isTrackingKeyItem (k : Str) : Bool :=
  (strOf "utm_").isPrefixOf k || k = strOf "fbclid" || k = strOf "gclid" ||
    k = strOf "mc_cid" || k = strOf "mc_eid"

/-- The tracking-filtered query pair list of urlcanon. -/
def trackFilter (raw : Str) : List (Str × Str) :=
  (parseQueryModel raw).filter (fun kv => !(isTrackingKey (lowerStr kv.1)))

/-- `urlcanon.Normalize` on a parsed URL (normalize.go:33-85), ending in
`url.URL.String()` for the resulting field values. -/
def normalizeParsed (u : GoURL) : Str :=
  let scheme := lowerStr u.scheme
  let host0 := lowerStr u.host
  let host :=
    if (strOf "www.").isPrefixOf host0 && decide (host0.length > 4) then
      host0.drop 4
    else host0
  let port :=
    if (scheme = strOf "http" ∧ u.port = strOf "80") ∨
        (scheme = strOf "https" ∧ u.port = strOf "443") then []
    else u.port
  let hostOut :=
    if !port.isEmpty then joinHostPort host port
    else if host.contains ':' then '[' :: host ++ ']' :: []
    else host
  let path :=
    if !u.path.isEmpty then
      (let c := pathClean u.path
       let c2 := if c = strOf "." then [] else c
       let c3 := if c2 = strOf "/" then [] else c2
       trimSuffixSlash c3)
    else u.path
  let rawQuery :=
    if !u.rawQuery.isEmpty then
      (let q := trackFilter u.rawQuery
       if q.isEmpty then [] else encodeQuery q)
    else u.rawQuery
  scheme ++ ':' :: '/' :: '/' :: hostOut ++ path ++
    (if (u.hasQuery && u.rawQuery.isEmpty) || !rawQuery.isEmpty then
      '?' :: rawQuery
    else [])

/-- `urlcanon.Normalize` (normalize.go:22-86). -/
def urlNormalize (raw : Str) : Str :=
  let t := goTrimSpace raw
  if t.isEmpty then []
  else
    match parseURL t with
    | none => t
    | some u => normalizeParsed u

/-- The item module's `normalizeURL` (item.go:150-194): no `www.` strip,
no trailing-slash or root-slash removal, plain `host + ":" + port`
joining, and the smaller blocklist. -/
def normalizeURLitem (raw : Str) : Str :=
  let t := goTrimSpace raw
  if t.isEmpty then []
  else
    match parseURL t with
    | none => t
    | some u =>
      let scheme := lowerStr u.scheme
      let host := lowerStr u.host
      let port :=
        if (scheme = strOf "http" ∧ u.port = strOf "80") ∨
            (scheme = strOf "https" ∧ u.port = strOf "443") then []
        else u.port
      let hostOut := if !port.isEmpty then host ++ ':' :: port else host
      let path :=
        if !u.path.isEmpty then
          (let c := pathClean u.path
           if c = strOf "." then [] else c)
        else u.path
      let q := (parseQueryModel u.rawQuery).filter
        (fun kv => !(isTrackingKeyItem (lowerStr kv.1)))
      let rawQuery := if q.isEmpty then [] else encodeQuery q
      scheme ++ ':' :: '/' :: '/' :: hostOut ++ path ++
        (if (u.hasQuery && u.rawQuery.isEmpty) || !rawQuery.isEmpty then
          '?' :: rawQuery
        else [])

/- ------------------------------------------------------------------ -/
/- Item derivation: src/internal/item/item.go lines 34-96 and the      -/
/- canonicalization step of FetchFeed (main.go:371-372).               -/
/- ------------------------------------------------------------------ -/

/-- `gofeed.Item` restricted to the fields `FromFeedItem` reads; the
author name and the published timestamp flow into columns but not into
the fingerprint, and are kept to state determinism against items that
differ in them. -/
structure GoFeedItem where
  guid : Str
  title : Str
  link : Str
  content : Str
  description : Str
  authorName : Option Str
  hasPublished : Bool
deriving DecidableEq, Repr

/-- `firstNonEmpty(fi.Link)` (item.go:89-96) at its single-argument call
site: the link when not blank, else the empty string. -/
def firstNonEmptyLink (v : Str) : Str :=
  if !(goTrimSpace v).isEmpty then v else []

/-- `FromFeedItem` (item.go:34-87) restricted to the fields of
`UpsertParamsM`; the fingerprint is represented by its digest input
stream (`hashStream`), of which the SHA-256 output is a function. -/
def fromFeedItem (parse : Str → Option HNode) (feedID : Str)
    (fi : GoFeedItem) : UpsertParamsM :=
  let guid := if !fi.guid.isEmpty then some fi.guid else none
  let title := goTrimSpace fi.title
  let url := normalizeURLitem (firstNonEmptyLink fi.link)
  let contentHTML :=
    if !(goTrimSpace fi.content).isEmpty then goTrimSpace fi.content
    else goTrimSpace fi.description
  let contentText0 := sanitizeHTML parse contentHTML
  let contentText :=
    if contentText0.isEmpty then goTrimSpace fi.description else contentText0
  let guidValue := guid.getD []
  { feedId := feedID, guid := guid, url := url, title := title,
    contentText := contentText,
    hash := hashStream [feedID, guidValue, url, title, contentText] }

/-- The per-item derivation of `FetchFeed` (main.go:371-372):
`params := item.FromFeedItem(f.ID, entry)` followed by
`params.URL = urlcanon.Normalize(params.URL)` — the fingerprint is not
recomputed after the URL is overwritten. -/
def deriveItemParams (parse : Str → Option HNode) (feedID : Str)
    (fi : GoFeedItem) : UpsertParamsM :=
  let params := fromFeedItem parse feedID fi
  { params with url := urlNormalize params.url }

/- ------------------------------------------------------------------ -/
/- Theorems.                                                           -/
/- ------------------------------------------------------------------ -/

theorem lookupEntry_setEntry (items : BackoffItems) (id : Str) (e : BackoffEntry) :
    lookupEntry (setEntry items id e) id = e := by
  induction items with
  | nil => simp [setEntry, lookupEntry]
  | cons p rest ih =>
    by_cases h : p.1 == id
    · simp [setEntry, h, lookupEntry]
    · simp only [setEntry, h, if_false, Bool.false_eq_true]
      simpa [lookupEntry, List.find?, h] using ih

theorem backoffSchedule_fst (b : BackoffTracker) (id : Str) (now s : Int) :
    (backoffSchedule b id now s).1 =
      (let d0 := if s ≤ 0 then (if (lookupEntry b.items id).duration = 0 then b.minD
                  else (lookupEntry b.items id).duration * b.factor) else s
       if d0 > b.maxD then b.maxD else d0) := rfl

theorem backoffSchedule_lookup (b : BackoffTracker) (id : Str) (now s : Int) :
    lookupEntry (backoffSchedule b id now s).2.items id =
      ⟨now + (backoffSchedule b id now s).1, (backoffSchedule b id now s).1⟩ :=
  lookupEntry_setEntry _ _ _

theorem backoffSchedule_minD (b : BackoffTracker) (id : Str) (now s : Int) :
    (backoffSchedule b id now s).2.minD = b.minD := rfl

theorem backoffSchedule_maxD (b : BackoffTracker) (id : Str) (now s : Int) :
    (backoffSchedule b id now s).2.maxD = b.maxD := rfl

theorem backoffSchedule_factor (b : BackoffTracker) (id : Str) (now s : Int) :
    (backoffSchedule b id now s).2.factor = b.factor := rfl

theorem lookupEntry_deleteEntry (items : BackoffItems) (id : Str) :
    lookupEntry (deleteEntry items id) id = ⟨0, 0⟩ := by
  induction items with
  | nil => rfl
  | cons p rest ih =>
    by_cases h : p.1 == id
    · simpa [deleteEntry, h] using ih
    · simp only [deleteEntry, List.filter] at ih ⊢
      simp only [h, Bool.not_false]
      simpa [lookupEntry, List.find?, h] using ih

/-- Claim C5: for the default tracker parameters (floor 30s, ceiling 10min,
factor 2), `Schedule(id, now, suggested)` computes the floor when no prior
entry exists and `suggested` is non-positive, doubles the previous delay
(capped at the ceiling) when a prior entry exists, uses a positive
`suggested` directly capped at the ceiling, always overwrites the stored
entry with the computed delay and deadline `now + delay`, three consecutive
no-suggestion failures give non-decreasing delays each at most the ceiling,
and `Reset` clears the entry so the next failure starts again at the floor. -/
theorem backoff_schedule_spec (b : BackoffTracker) (id : Str)
    (now suggested t2 t3 t4 : Int)
    (hdef : defaultParams b)
    (hdur : 0 ≤ (lookupEntry b.items id).duration) :
    ((suggested ≤ 0 ∧ (lookupEntry b.items id).duration = 0) →
      (backoffSchedule b id now suggested).1 = b.minD) ∧
    ((suggested ≤ 0 ∧ (lookupEntry b.items id).duration ≠ 0) →
      (backoffSchedule b id now suggested).1 =
        min b.maxD ((lookupEntry b.items id).duration * 2)) ∧
    (0 < suggested →
      (backoffSchedule b id now suggested).1 = min b.maxD suggested) ∧
    (lookupEntry (backoffSchedule b id now suggested).2.items id =
      ⟨now + (backoffSchedule b id now suggested).1,
       (backoffSchedule b id now suggested).1⟩) ∧
    (let r1 := backoffSchedule b id t2 0
     let r2 := backoffSchedule r1.2 id t3 0
     let r3 := backoffSchedule r2.2 id t4 0
     r1.1 ≤ r2.1 ∧ r2.1 ≤ r3.1 ∧
       r1.1 ≤ b.maxD ∧ r2.1 ≤ b.maxD ∧ r3.1 ≤ b.maxD) ∧
    ((backoffSchedule (backoffReset b id) id now 0).1 = b.minD) := by
  obtain ⟨hmin, hmax, hfac⟩ := hdef
  constructor
  · rintro ⟨hs, hd⟩
    simp only [backoffSchedule, hd, if_pos hs, if_true]
    rw [hmin, hmax]
    norm_num
  constructor
  · rintro ⟨hs, hd⟩
    simp only [backoffSchedule, if_pos hs, if_neg hd, hfac]
    rcases le_or_lt ((lookupEntry b.items id).duration * 2) b.maxD with h | h
    · rw [if_neg (by omega), min_eq_right h]
    · rw [if_pos h, min_eq_left (le_of_lt h)]
  constructor
  · intro hs
    simp only [backoffSchedule, if_neg (by omega : ¬ suggested ≤ 0)]
    rcases le_or_lt suggested b.maxD with h | h
    · rw [if_neg (by omega), min_eq_right h]
    · rw [if_pos h, min_eq_left (le_of_lt h)]
  constructor
  · exact backoffSchedule_lookup b id now suggested
  constructor
  · dsimp only
    have h1 := backoffSchedule_fst b id t2 0
    have h2 := backoffSchedule_fst (backoffSchedule b id t2 0).2 id t3 0
    have h3 := backoffSchedule_fst
      (backoffSchedule (backoffSchedule b id t2 0).2 id t3 0).2 id t4 0
    rw [backoffSchedule_lookup b id t2 0] at h2
    rw [backoffSchedule_lookup (backoffSchedule b id t2 0).2 id t3 0] at h3
    dsimp only at h1 h2 h3
    rw [backoffSchedule_minD, backoffSchedule_maxD, backoffSchedule_factor] at h2
    rw [backoffSchedule_minD, backoffSchedule_maxD, backoffSchedule_factor,
      backoffSchedule_minD, backoffSchedule_maxD, backoffSchedule_factor] at h3
    rw [hmin, hmax, hfac] at h1 h2 h3
    rw [hmax]
    norm_num at h1 h2 h3
    set d1 := (backoffSchedule b id t2 0).1 with hd1
    set d2 := (backoffSchedule (backoffSchedule b id t2 0).2 id t3 0).1 with hd2
    set d3 :=
      (backoffSchedule (backoffSchedule (backoffSchedule b id t2 0).2 id t3 0).2 id t4 0).1
      with hd3
    set e0 := (lookupEntry b.items id).duration with he0
    split_ifs at h1 h2 h3 <;> omega
  · simp only [backoffSchedule, backoffReset, lookupEntry_deleteEntry]
    rw [hmin, hmax]
    norm_num

/-- Witness for C5 at the concrete default tracker. -/
theorem backoff_schedule_spec_witness :
    defaultParams newBackoffTracker ∧
    0 ≤ (lookupEntry newBackoffTracker.items (strOf "feed-1")).duration ∧
    ((0 ≤ (0 : Int) ∧ (lookupEntry newBackoffTracker.items (strOf "feed-1")).duration = 0) →
      (backoffSchedule newBackoffTracker (strOf "feed-1") 5 0).1 = newBackoffTracker.minD) :=
  ⟨by decide, by decide,
    (backoff_schedule_spec newBackoffTracker (strOf "feed-1") 5 0 7 9 11
      (by decide) (by decide)).1 ∘ (fun h => ⟨le_of_eq rfl, h.2⟩)⟩

theorem sep_split (x y s1 s2 : Str) (hx : nulSep ∉ x) (hy : nulSep ∉ y)
    (h : x ++ nulSep :: s1 = y ++ nulSep :: s2) : x = y ∧ s1 = s2 := by
  induction x generalizing y with
  | nil =>
    cases y with
    | nil => simpa using h
    | cons b ys =>
      exfalso
      simp only [List.nil_append, List.cons_append, List.cons.injEq] at h
      exact hy (h.1 ▸ List.mem_cons_self b ys)
  | cons a xs ih =>
    cases y with
    | nil =>
      exfalso
      simp only [List.cons_append, List.nil_append, List.cons.injEq] at h
      exact hx (h.1 ▸ List.mem_cons_self a xs)
    | cons b ys =>
      simp only [List.cons_append, List.cons.injEq] at h
      have hx2 : nulSep ∉ xs := fun m => hx (List.mem_cons_of_mem a m)
      have hy2 : nulSep ∉ ys := fun m => hy (List.mem_cons_of_mem b m)
      obtain ⟨h1, h2⟩ := ih ys hx2 hy2 h.2
      exact ⟨by rw [h.1, h1], h2⟩

/-- Claim C8 (amended): for tuples of parts none of which contains the
separator byte, the digest input streams of two distinct tuples are
distinct — stated as injectivity of `hashStream` on such tuples. -/
theorem hashStream_inj (xs ys : List Str)
    (hx : ∀ p ∈ xs, nulSep ∉ p) (hy : ∀ p ∈ ys, nulSep ∉ p)
    (h : hashStream xs = hashStream ys) : xs = ys := by
  induction xs generalizing ys with
  | nil =>
    cases ys with
    | nil => rfl
    | cons q qs =>
      exfalso
      simp only [hashStream] at h
      exact List.noConfusion (List.append_eq_nil.mp h.symm).2
  | cons p ps ih =>
    cases ys with
    | nil =>
      exfalso
      simp only [hashStream] at h
      exact List.noConfusion (List.append_eq_nil.mp h).2
    | cons q qs =>
      simp only [hashStream] at h
      obtain ⟨h1, h2⟩ := sep_split p q _ _
        (hx p (List.mem_cons_self p ps)) (hy q (List.mem_cons_self q qs)) h
      have := ih qs (fun r hr => hx r (List.mem_cons_of_mem p hr))
        (fun r hr => hy r (List.mem_cons_of_mem q hr)) h2
      rw [h1, this]

/-- Witness for the amended C8 at a concrete tuple. -/
theorem hashStream_inj_witness :
    (∀ p ∈ ([strOf "a", strOf "b"] : List Str), nulSep ∉ p) ∧
      ([strOf "a", strOf "b"] : List Str) = [strOf "a", strOf "b"] :=
  ⟨by decide, hashStream_inj [strOf "a", strOf "b"] [strOf "a", strOf "b"]
    (by decide) (by decide) rfl⟩

/-- Counterexample to C8 as stated: the two tuples `("a\x00")` and
`("a", "")` are distinct, yet they feed the identical byte stream to the
digest, because a part may itself contain the separator byte. -/
theorem hashStream_counterexample :
    hashStream [['a', nulSep]] = hashStream [['a'], []] ∧
      ([['a', nulSep]] : List Str) ≠ [['a'], []] := by
  exact ⟨rfl, by decide⟩

theorem upsertIndividually_fst {α : Type} (oneOk : α → Bool) (l : List α) :
    (upsertIndividually oneOk l).1 = (l.takeWhile oneOk).length := by
  induction l with
  | nil => rfl
  | cons d ds ih =>
    by_cases h : oneOk d
    · simp [upsertIndividually, h, List.takeWhile_cons, ih]
    · simp [upsertIndividually, h, List.takeWhile_cons]

theorem upsertIndividually_snd {α : Type} (oneOk : α → Bool) (l : List α) :
    (upsertIndividually oneOk l).2 = l.all oneOk := by
  induction l with
  | nil => rfl
  | cons d ds ih =>
    by_cases h : oneOk d
    · simp [upsertIndividually, h, ih]
    · simp [upsertIndividually, h]

theorem take_takeWhile_length {α : Type} (p : α → Bool) (l : List α) :
    l.take (l.takeWhile p).length = l.takeWhile p := by
  induction l with
  | nil => rfl
  | cons d ds ih =>
    by_cases h : p d
    · simp [List.takeWhile_cons, h, ih]
    · simp [List.takeWhile_cons, h]

theorem drop_takeWhile_length {α : Type} (p : α → Bool) (l : List α) :
    l.drop (l.takeWhile p).length = l.dropWhile p := by
  induction l with
  | nil => rfl
  | cons d ds ih =>
    by_cases h : p d
    · simp [List.takeWhile_cons, List.dropWhile_cons, h, ih]
    · simp [List.takeWhile_cons, List.dropWhile_cons, h]

theorem dropWhile_head_false {α : Type} (p : α → Bool) (l : List α) (x : α)
    (r : List α) (h : l.dropWhile p = x :: r) : p x = false := by
  induction l with
  | nil => simp at h
  | cons d ds ih =>
    by_cases hd : p d
    · exact ih (by simpa [List.dropWhile_cons, hd] using h)
    · rw [List.dropWhile_cons, if_neg (by simp [hd])] at h
      cases h
      simpa using hd

theorem flushLoopF_fuel {α : Type} (bs : Nat) (bulkOk : List α → Bool)
    (oneOk : α → Bool) (f1 : Nat) :
    ∀ (f2 : Nat) (pending : List α), pending.length ≤ f1 → pending.length ≤ f2 →
      flushLoopF bs bulkOk oneOk f1 pending = flushLoopF bs bulkOk oneOk f2 pending := by
  induction f1 with
  | zero =>
    intro f2 pending h1 h2
    have : pending = [] := List.eq_nil_of_length_eq_zero (Nat.le_zero.mp h1)
    subst this
    cases f2 <;> rfl
  | succ f ih =>
    intro f2 pending h1 h2
    cases pending with
    | nil => cases f2 <;> rfl
    | cons d p0 =>
      cases f2 with
      | zero => exact absurd h2 (by simp)
      | succ f2p =>
        simp only [flushLoopF]
        have hlen : (d :: p0).length = p0.length + 1 := rfl
        have hcs1 : 1 ≤ min (max bs 1) (d :: p0).length := by
          refine le_min (le_max_right _ _) ?_
          simp [hlen]
        set cs := min (max bs 1) (d :: p0).length with hcs
        have hcsle : cs ≤ (d :: p0).length := min_le_right _ _
        have hdl : ((d :: p0).drop cs).length = (d :: p0).length - cs := List.length_drop _ _
        by_cases hb : bulkOk ((d :: p0).take cs)
        · simp only [hb, if_true]
          rw [ih f2p ((d :: p0).drop cs) (by omega) (by omega)]
        · simp only [hb, if_false, Bool.false_eq_true]
          by_cases hok : (upsertIndividually oneOk ((d :: p0).take cs)).2
          · simp only [hok, if_true]
            rw [ih f2p ((d :: p0).drop cs) (by omega) (by omega)]
          · simp only [hok, if_false, Bool.false_eq_true]
            set n := (upsertIndividually oneOk ((d :: p0).take cs)).1 with hn
            cases hdrop : (d :: p0).drop n with
            | nil => rfl
            | cons x rest2 =>
              have : ((d :: p0).drop n).length = (d :: p0).length - n := List.length_drop _ _
              rw [hdrop] at this
              simp only [List.length_cons] at this
              dsimp only
              rw [ih f2p rest2 (by omega) (by omega)]

theorem all_false_takeWhile_lt {α : Type} (p : α → Bool) (l : List α)
    (h : l.all p = false) : (l.takeWhile p).length < l.length := by
  induction l with
  | nil => simp at h
  | cons d ds ih =>
    by_cases hd : p d
    · simp only [List.all_cons, hd, Bool.true_and] at h
      simp only [List.takeWhile_cons, hd, if_true, List.length_cons]
      exact Nat.succ_lt_succ (ih h)
    · simp [List.takeWhile_cons, hd]

/-- Claim C2 (amended): whenever a bulk flush of a batch fails, the
orchestrator falls back to upserting that batch's documents one at a time
in original order, stopping that flush attempt at the first
individually-failing document: documents before it are confirmed indexed,
the failing document is logged and dropped, and the documents after it
remain pending and are re-attempted by further flush attempts within the
same tick (the recursive call on `rest2`). -/
theorem flush_bulk_failure_fallback {α : Type} (bs : Nat) (bulkOk : List α → Bool)
    (oneOk : α → Bool) (pending : List α) (x : α) (rest2 : List α)
    (hbulk : bulkOk (pending.take (min (max bs 1) pending.length)) = false)
    (hfail : (pending.take (min (max bs 1) pending.length)).all oneOk = false)
    (hdrop : pending.drop
        (((pending.take (min (max bs 1) pending.length)).takeWhile oneOk).length) =
        x :: rest2) :
    flushLoop bs bulkOk oneOk pending =
      ((pending.take (min (max bs 1) pending.length)).takeWhile oneOk ++
          (flushLoop bs bulkOk oneOk rest2).1,
        x :: (flushLoop bs bulkOk oneOk rest2).2) ∧
    (∀ y ∈ (pending.take (min (max bs 1) pending.length)).takeWhile oneOk,
        oneOk y = true) ∧
    oneOk x = false := by
  cases pending with
  | nil => simp at hdrop
  | cons d p0 =>
    simp only [List.length_cons] at hbulk hfail hdrop ⊢
    set cs := min (max bs 1) (p0.length + 1) with hcs
    set chunk := (d :: p0).take cs with hchunk
    set n := (chunk.takeWhile oneOk).length with hn
    have hcsle : cs ≤ p0.length + 1 := min_le_right _ _
    have hchl : chunk.length = cs := by
      rw [hchunk, List.length_take, List.length_cons]
      omega
    have hnlt : n < cs := by
      have := all_false_takeWhile_lt oneOk chunk hfail
      omega
    have hx : oneOk x = false := by
      have hdt : chunk.drop n = (x :: rest2).take (cs - n) := by
        rw [hchunk, List.drop_take, hdrop]
      have hdw : chunk.dropWhile oneOk = x :: rest2.take (cs - n - 1) := by
        rw [← drop_takeWhile_length, ← hn, hdt,
          show cs - n = (cs - n - 1) + 1 by omega, List.take_succ_cons]
        simp only [Nat.add_sub_cancel]
      exact dropWhile_head_false oneOk chunk x _ hdw
    refine ⟨?_, fun y hy => List.mem_takeWhile_imp hy, hx⟩
    have hdroplen : ((d :: p0).drop n).length = p0.length + 1 - n := by
      rw [List.length_drop, List.length_cons]
    rw [hdrop] at hdroplen
    simp only [List.length_cons] at hdroplen
    show flushLoopF bs bulkOk oneOk (d :: p0).length (d :: p0) = _
    simp only [List.length_cons, flushLoopF]
    rw [← hcs, ← hchunk]
    rw [hbulk]
    simp only [if_false, Bool.false_eq_true, reduceIte]
    rw [upsertIndividually_snd, hfail]
    simp only [if_false, Bool.false_eq_true, reduceIte]
    rw [upsertIndividually_fst, ← hn, hdrop]
    dsimp only
    rw [take_takeWhile_length]
    have hr : flushLoopF bs bulkOk oneOk p0.length rest2 =
        flushLoop bs bulkOk oneOk rest2 :=
      flushLoopF_fuel bs bulkOk oneOk p0.length rest2.length rest2
        (by omega) (by omega)
    rw [hr]

/-- Counterexample to C2 as stated: with batch `[0, 1, 2]`, bulk upserts
always failing and document 1 the only individual failure, document 2 —
which sits after the failing document in the failed sub-batch — is
retried and confirmed indexed within the same tick, contradicting
"the failing document and every document after it ... are left
unresolved ..., not retried within the same tick". -/
theorem flush_fallback_counterexample :
    flushLoop 3 (fun _ => false) (fun d => !(d == 1)) [0, 1, 2] = ([0, 2], [1]) ∧
      2 ∈ (flushLoop 3 (fun _ => false) (fun d => !(d == 1)) [0, 1, 2]).1 := by
  constructor <;> decide

/-- Witness for the amended C2 at the concrete batch `[0, 1, 2]`. -/
theorem flush_bulk_failure_fallback_witness :
    ((fun (_ : List Nat) => false) ([0, 1, 2].take (min (max 3 1) 3)) = false) ∧
    (([0, 1, 2].take (min (max 3 1) 3)).all (fun d => !(d == 1)) = false) ∧
    (flushLoop 3 (fun _ => false) (fun d => !(d == 1)) [0, 1, 2] =
      (([0, 1, 2].take (min (max 3 1) ([0, 1, 2] : List Nat).length)).takeWhile
          (fun d => !(d == 1)) ++
          (flushLoop 3 (fun _ => false) (fun d => !(d == 1)) [2]).1,
        1 :: (flushLoop 3 (fun _ => false) (fun d => !(d == 1)) [2]).2) ∧
      (∀ y ∈ ([0, 1, 2].take (min (max 3 1) ([0, 1, 2] : List Nat).length)).takeWhile
          (fun d => !(d == 1)), (fun d => !(d == 1)) y = true) ∧
      (fun d => !(d == 1)) 1 = false) :=
  ⟨by decide, by decide,
    flush_bulk_failure_fallback 3 (fun _ => false) (fun d => !(d == 1))
      [0, 1, 2] 1 [2] (by decide) (by decide) (by decide)⟩

/-- Claim C3 (amended): a source whose fetch fails is terminal for the
tick; a backoff is scheduled only for the rate-limited (retry-later)
failure kind, with the server-suggested delay passed to the scheduler;
every other failure kind — including transient ones — leaves the tracker
untouched with reason "fetch failed". -/
theorem fetch_failure_backoff (b : BackoffTracker) (fid : Str) (now : Int)
    (w : WireOutcome) (k : FetchErrKind)
    (hidle : ¬ (backoffRemaining b fid now).1 > 0)
    (hk : (fetchClassify w).2 = some k) :
    ((fetchFeedErrPath b fid now w).1.proceeded = false) ∧
    ((fetchFeedErrPath b fid now w).1.errKind = some k) ∧
    (k = FetchErrKind.retryLater →
      (fetchFeedErrPath b fid now w).2 =
        (backoffSchedule (backoffRemaining b fid now).2 fid now
          (fetchClassify w).1.retryAfter).2 ∧
      (fetchFeedErrPath b fid now w).1.retryIn =
        (backoffSchedule (backoffRemaining b fid now).2 fid now
          (fetchClassify w).1.retryAfter).1 ∧
      (fetchFeedErrPath b fid now w).1.reason = strOf "retry scheduled") ∧
    (k ≠ FetchErrKind.retryLater →
      (fetchFeedErrPath b fid now w).2 = (backoffRemaining b fid now).2 ∧
      (fetchFeedErrPath b fid now w).1.retryIn = 0 ∧
      (fetchFeedErrPath b fid now w).1.reason = strOf "fetch failed") := by
  simp only [fetchFeedErrPath, hk]
  rw [if_neg hidle]
  by_cases hrl : k = FetchErrKind.retryLater
  · simp [hrl]
  · simp [hrl]

/-- Witness for the amended C3 at a concrete rate-limited response. -/
theorem fetch_failure_backoff_witness :
    (¬ (backoffRemaining newBackoffTracker (strOf "f") 0).1 > 0) ∧
    ((fetchClassify (WireOutcome.response 429 [] false)).2 =
      some FetchErrKind.retryLater) ∧
    (((fetchFeedErrPath newBackoffTracker (strOf "f") 0
        (WireOutcome.response 429 [] false)).1.proceeded = false) ∧
     ((fetchFeedErrPath newBackoffTracker (strOf "f") 0
        (WireOutcome.response 429 [] false)).1.errKind =
        some FetchErrKind.retryLater) ∧
     (FetchErrKind.retryLater = FetchErrKind.retryLater →
      (fetchFeedErrPath newBackoffTracker (strOf "f") 0
          (WireOutcome.response 429 [] false)).2 =
        (backoffSchedule (backoffRemaining newBackoffTracker (strOf "f") 0).2
          (strOf "f") 0
          (fetchClassify (WireOutcome.response 429 [] false)).1.retryAfter).2 ∧
      (fetchFeedErrPath newBackoffTracker (strOf "f") 0
          (WireOutcome.response 429 [] false)).1.retryIn =
        (backoffSchedule (backoffRemaining newBackoffTracker (strOf "f") 0).2
          (strOf "f") 0
          (fetchClassify (WireOutcome.response 429 [] false)).1.retryAfter).1 ∧
      (fetchFeedErrPath newBackoffTracker (strOf "f") 0
          (WireOutcome.response 429 [] false)).1.reason = strOf "retry scheduled") ∧
     (FetchErrKind.retryLater ≠ FetchErrKind.retryLater →
      (fetchFeedErrPath newBackoffTracker (strOf "f") 0
          (WireOutcome.response 429 [] false)).2 =
        (backoffRemaining newBackoffTracker (strOf "f") 0).2 ∧
      (fetchFeedErrPath newBackoffTracker (strOf "f") 0
          (WireOutcome.response 429 [] false)).1.retryIn = 0 ∧
      (fetchFeedErrPath newBackoffTracker (strOf "f") 0
          (WireOutcome.response 429 [] false)).1.reason = strOf "fetch failed")) :=
  ⟨by decide, by decide,
    fetch_failure_backoff newBackoffTracker (strOf "f") 0
      (WireOutcome.response 429 [] false) FetchErrKind.retryLater
      (by decide) (by decide)⟩

/-- Counterexample to C3 as stated: an HTTP 503 response (an explicitly
transient status, classified `ErrTransientFetch` with a parsed Retry-After
of 5s) leaves the backoff tracker empty — no backoff is scheduled — and
the result carries reason "fetch failed" with no retry delay. -/
theorem transient_no_backoff_counterexample :
    (fetchClassify (WireOutcome.response 503 (strOf "5") false)).2 =
        some FetchErrKind.transientFetch ∧
      (fetchFeedErrPath newBackoffTracker (strOf "feed-1") 0
          (WireOutcome.response 503 (strOf "5") false)).2.items = [] ∧
      (fetchFeedErrPath newBackoffTracker (strOf "feed-1") 0
          (WireOutcome.response 503 (strOf "5") false)).1.reason =
        strOf "fetch failed" ∧
      (fetchFeedErrPath newBackoffTracker (strOf "feed-1") 0
          (WireOutcome.response 503 (strOf "5") false)).1.retryIn = 0 := by
  decide

theorem existingMatch_key (p : UpsertParamsM) (r : ItemRow)
    (h : existingMatch p r = true) :
    identityKey r.feedId r.guid r.url = identityKey p.feedId p.guid p.url := by
  unfold existingMatch at h
  unfold identityKey
  rcases Bool.and_eq_true_iff.mp h with ⟨hf, hg⟩
  have hf2 : r.feedId = p.feedId := by simpa using hf
  cases hpg : p.guid with
  | some g =>
    cases hrg : r.guid with
    | some rg =>
      rw [hpg, hrg] at hg
      simp only at hg
      have : rg = g := by simpa using hg
      simp [hf2, this]
    | none => rw [hpg, hrg] at hg; simp at hg
  | none =>
    cases hrg : r.guid with
    | some rg => rw [hpg, hrg] at hg; simp at hg
    | none =>
      rw [hpg, hrg] at hg
      simp only at hg
      have : r.url = p.url := by simpa using hg
      simp [hf2, this]

theorem mem_same_key_eq (t : List ItemRow) (hwf : tableWF t) (e c : ItemRow)
    (he : e ∈ t) (hc : c ∈ t)
    (hk : identityKey e.feedId e.guid e.url = identityKey c.feedId c.guid c.url) :
    e = c := by
  induction t with
  | nil => cases he
  | cons a rest ih =>
    have hpw := List.pairwise_cons.mp hwf
    rcases List.mem_cons.mp he with he1 | he2
    · rcases List.mem_cons.mp hc with hc1 | hc2
      · rw [he1, hc1]
      · exfalso
        exact (hpw.1 c hc2).1 (he1 ▸ hk)
    · rcases List.mem_cons.mp hc with hc1 | hc2
      · exfalso
        exact (hpw.1 e he2).1 (hc1 ▸ hk.symm)
      · exact ih hpw.2 he2 hc2

theorem upsert_indexed_amended (t : List ItemRow) (nid : Nat) (p : UpsertParamsM)
    (hwf : tableWF t) (res : UpsertResultM) (t2 : List ItemRow) (n2 : Nat)
    (h : upsertItemModel t nid p = (some res, t2, n2)) :
    res.indexed = amendedChanged t p := by
  unfold upsertItemModel at h
  unfold amendedChanged
  cases hc : conflictLookup t p with
  | none =>
    rw [hc] at h
    simp only [Prod.mk.injEq, Option.some.injEq] at h
    obtain ⟨h1, -, -⟩ := h
    subst h1
    rfl
  | some c =>
    rw [hc] at h
    dsimp only at h
    split at h
    · exact absurd h (by simp)
    · cases he : existingLookup t p with
      | none =>
        rw [he] at h
        simp only [Prod.mk.injEq, Option.some.injEq] at h
        obtain ⟨h1, -, -⟩ := h
        subst h1
        rfl
      | some e =>
        rw [he] at h
        dsimp only at h
        have hemem : e ∈ t := List.mem_of_find?_eq_some he
        have hematch : existingMatch p e = true := List.find?_some he
        have hcmem : c ∈ t := List.mem_of_find?_eq_some hc
        have hckey : identityKey c.feedId c.guid c.url =
            identityKey p.feedId p.guid p.url := by
          have := List.find?_some hc
          simpa using this
        have hekey := existingMatch_key p e hematch
        have hec : e = c := mem_same_key_eq t hwf e c hemem hcmem
          (hekey.trans hckey.symm)
        rw [if_pos (by rw [hec])] at h
        dsimp only at h
        simp only [Prod.mk.injEq, Option.some.injEq] at h
        obtain ⟨h1, -, -⟩ := h
        subst h1
        rfl

theorem upsert_preserves_wf (t : List ItemRow) (nid : Nat) (p : UpsertParamsM)
    (o : Option UpsertResultM) (t2 : List ItemRow) (n2 : Nat)
    (hwf : repoWF t nid) (h : upsertItemModel t nid p = (o, t2, n2)) :
    repoWF t2 n2 := by
  unfold upsertItemModel at h
  cases hc : conflictLookup t p with
  | none =>
    rw [hc] at h
    simp only [Prod.mk.injEq] at h
    obtain ⟨-, h2, h3⟩ := h
    subst h2; subst h3
    have hnew : ∀ r ∈ t, ¬ (identityKey r.feedId r.guid r.url =
        identityKey p.feedId p.guid p.url) := by
      intro r hr
      have := List.find?_eq_none.mp hc r hr
      simpa using this
    constructor
    · unfold tableWF
      rw [List.pairwise_append]
      refine ⟨hwf.1, List.pairwise_singleton _ _, ?_⟩
      intro a ha b hb
      have hb2 : b = ⟨nid, p.feedId, p.guid, p.url, p.title, p.contentText, p.hash⟩ := by
        simpa using hb
      subst hb2
      exact ⟨hnew a ha, by have := hwf.2 a ha; dsimp only; omega⟩
    · intro r hr
      rcases List.mem_append.mp hr with h1 | h2
      · have := hwf.2 r h1; omega
      · have : r = ⟨nid, p.feedId, p.guid, p.url, p.title, p.contentText, p.hash⟩ := by
          simpa using h2
        subst this
        dsimp only
        omega
  | some c =>
    rw [hc] at h
    dsimp only at h
    split at h
    · simp only [Prod.mk.injEq] at h
      obtain ⟨-, h2, h3⟩ := h
      subst h2; subst h3
      exact hwf
    · rename_i hviol
      simp only [Prod.mk.injEq] at h
      obtain ⟨-, h2, h3⟩ := h
      subst h2; subst h3
      have hcrid : c.rid < nid := hwf.2 c (List.mem_of_find?_eq_some hc)
      have hother : ∀ r ∈ t, ¬ r.rid = c.rid →
          ¬ identityKey r.feedId r.guid r.url =
            identityKey c.feedId c.guid p.url := by
        intro r hr hrid habs
        apply hviol
        rw [List.any_eq_true]
        exact ⟨r, hr, by simp only [decide_eq_true_eq]; exact ⟨hrid, habs⟩⟩
      constructor
      · unfold tableWF
        rw [List.pairwise_map]
        refine List.Pairwise.imp_of_mem ?_ hwf.1
        intro a b ha hb hab
        by_cases hac : (a.rid == c.rid) = true
        · have harid : a.rid = c.rid := by simpa using hac
          by_cases hbc : (b.rid == c.rid) = true
          · have : b.rid = c.rid := by simpa using hbc
            exact absurd (harid.trans this.symm) hab.2
          · have hbrid : ¬ b.rid = c.rid := by simpa using hbc
            simp only [hac, hbc, if_true, if_false, Bool.false_eq_true, reduceIte]
            exact ⟨fun habs => hother b hb hbrid habs.symm,
              fun habs => hbrid habs.symm⟩
        · by_cases hbc : (b.rid == c.rid) = true
          · have hbrid : b.rid = c.rid := by simpa using hbc
            have harid : ¬ a.rid = c.rid := by simpa using hac
            simp only [hac, hbc, if_true, if_false, Bool.false_eq_true, reduceIte]
            exact ⟨fun habs => hother a ha harid habs, fun habs => harid habs⟩
          · simp only [hac, hbc, if_false, Bool.false_eq_true, reduceIte]
            exact hab
      · intro r hr
        rcases List.mem_map.mp hr with ⟨a, ha, rfl⟩
        by_cases hac : (a.rid == c.rid) = true
        · simp only [hac, if_true, reduceIte]
          exact hcrid
        · simp only [hac, if_false, Bool.false_eq_true, reduceIte]
          exact hwf.2 a ha

/-- Claim C1 (amended): for every feed item processed in a tick, a search
document is appended to the pending-document queue if and only if the
upsert succeeded and reported the entry as changed, where the report is:
newly inserted, or no previous row matches the entry's guid exactly (its
URL when both guids are absent), or that exactly-matched row's fingerprint
differs — stated as equality of the FetchFeed item loop with the spec-side
pipeline gated by `amendedChanged`. -/
theorem processItems_changed_gate (fail : UpsertParamsM → Bool)
    (ps : List UpsertParamsM) :
    ∀ (t : List ItemRow) (nid : Nat), repoWF t nid →
      (processItems fail t nid ps).1 = specDocs fail t nid ps := by
  induction ps with
  | nil => intro t nid _; rfl
  | cons p ps ih =>
    intro t nid hwf
    simp only [processItems, specDocs]
    by_cases hf : fail p = true
    · rw [if_pos hf, if_pos hf]
      exact ih t nid hwf
    · rw [if_neg hf, if_neg hf]
      rcases hu : upsertItemModel t nid p with ⟨o, t2, n2⟩
      cases o with
      | none =>
        dsimp only
        exact ih t2 n2 (upsert_preserves_wf t nid p none t2 n2 hwf hu)
      | some res =>
        dsimp only
        rw [upsert_indexed_amended t nid p hwf.1 res t2 n2 hu]
        have hwf2 := upsert_preserves_wf t nid p (some res) t2 n2 hwf hu
        by_cases hidx : amendedChanged t p = true
        · rw [if_pos hidx, if_pos hidx]
          dsimp only
          rw [ih t2 n2 hwf2]
        · rw [if_neg hidx, if_neg hidx]
          exact ih t2 n2 hwf2

/-- Witness for the amended C1 at a concrete table and item. -/
theorem processItems_changed_gate_witness :
    repoWF [] 0 ∧
      (processItems (fun _ => false) [] 0
          [⟨strOf "f", some (strOf "g"), strOf "u", strOf "t", strOf "c", strOf "h"⟩]).1 =
        specDocs (fun _ => false) [] 0
          [⟨strOf "f", some (strOf "g"), strOf "u", strOf "t", strOf "c", strOf "h"⟩] :=
  ⟨⟨List.Pairwise.nil, fun r hr => absurd hr (List.not_mem_nil r)⟩,
    processItems_changed_gate (fun _ => false)
      [⟨strOf "f", some (strOf "g"), strOf "u", strOf "t", strOf "c", strOf "h"⟩] [] 0
      ⟨List.Pairwise.nil, fun r hr => absurd hr (List.not_mem_nil r)⟩⟩

/-- Counterexample to C1 as stated: upserting an item with guid "g" over a
table whose only row is guid-less with URL "g" and the same fingerprint is
not an insert, and the fingerprint previously stored for the identity
`(feed, "g")` equals the new one — yet the upsert reports the entry
changed (the `existing` CTE matches only by exact guid) and a document is
enqueued. -/
theorem upsert_changed_counterexample :
    (upsertItemModel [⟨0, strOf "f", none, strOf "g", strOf "t", strOf "c", strOf "h"⟩] 1
        ⟨strOf "f", some (strOf "g"), strOf "u", strOf "t2", strOf "c2", strOf "h"⟩).1.map
        (fun r => r.inserted) = some false ∧
    specChanged [⟨0, strOf "f", none, strOf "g", strOf "t", strOf "c", strOf "h"⟩]
        ⟨strOf "f", some (strOf "g"), strOf "u", strOf "t2", strOf "c2", strOf "h"⟩ = false ∧
    (processItems (fun _ => false)
        [⟨0, strOf "f", none, strOf "g", strOf "t", strOf "c", strOf "h"⟩] 1
        [⟨strOf "f", some (strOf "g"), strOf "u", strOf "t2", strOf "c2", strOf "h"⟩]).1 ≠
      [] := by
  refine ⟨by decide, by decide, by decide⟩

theorem goTrimSpace_length_le (s : Str) : (goTrimSpace s).length ≤ s.length := by
  unfold goTrimSpace
  calc ((s.dropWhile goIsSpace).reverse.dropWhile goIsSpace).reverse.length
      = ((s.dropWhile goIsSpace).reverse.dropWhile goIsSpace).length := by
        rw [List.length_reverse]
    _ ≤ (s.dropWhile goIsSpace).reverse.length :=
        (List.dropWhile_suffix _).sublist.length_le
    _ = (s.dropWhile goIsSpace).length := by rw [List.length_reverse]
    _ ≤ s.length := (List.dropWhile_suffix _).sublist.length_le

theorem truncateR_length (s : Str) (m : Int) (h : 0 < m) :
    ((truncateR s m).length : Int) ≤ m := by
  unfold truncateR
  rw [if_neg (by omega)]
  by_cases hle : (s.length : Int) ≤ m
  · rw [if_pos hle]
    exact hle
  · rw [if_neg hle]
    have htake : (s.take m.toNat).length = m.toNat := by
      rw [List.length_take]
      omega
    dsimp only
    by_cases ht : goTrimSpace (s.take m.toNat) = []
    · rw [if_pos ht]
      rw [htake]
      omega
    · rw [if_neg ht]
      have hl := goTrimSpace_length_le (s.take m.toNat)
      rw [htake] at hl
      omega

theorem truncateR_nonempty (s : Str) (m : Int) (h : 0 < m) (hs : s ≠ []) :
    truncateR s m ≠ [] := by
  unfold truncateR
  rw [if_neg (by omega)]
  by_cases hle : (s.length : Int) ≤ m
  · rw [if_pos hle]
    exact hs
  · rw [if_neg hle]
    have htake : (s.take m.toNat).length = m.toNat := by
      rw [List.length_take]
      omega
    dsimp only
    by_cases ht : goTrimSpace (s.take m.toNat) = []
    · rw [if_pos ht]
      intro habs
      rw [habs] at htake
      simp only [List.length_nil] at htake
      omega
    · rw [if_neg ht]
      exact ht

theorem truncateR_trim (s : Str) (m : Int) (h : 0 < m)
    (hgt : (s.length : Int) > m) :
    (goTrimSpace (s.take m.toNat) ≠ [] →
      truncateR s m = goTrimSpace (s.take m.toNat)) ∧
    (goTrimSpace (s.take m.toNat) = [] → truncateR s m = s.take m.toNat) := by
  unfold truncateR
  rw [if_neg (by omega), if_neg (by omega)]
  dsimp only
  constructor
  · intro ht
    rw [if_neg ht]
  · intro ht
    rw [if_pos ht]

theorem cleanHTML_length (parse : Str → Option HNode) (input : Str) (m : Int)
    (hm : 0 < m) : ((cleanHTML parse input m).length : Int) ≤ m := by
  unfold cleanHTML
  by_cases ht : goTrimSpace input = []
  · rw [if_pos ht]
    simp
    omega
  · rw [if_neg ht]
    dsimp only
    rw [if_neg (by omega : ¬ m ≤ 0)]
    cases parse (goTrimSpace input) with
    | none => exact truncateR_length _ m hm
    | some node => exact truncateR_length _ m hm

/-- Claim C7: for every fragment and every `maxLen > 0` the output of
CleanHTML has at most `maxLen` runes; when truncation occurs the truncated
tail is trimmed of surrounding whitespace, keeping the untrimmed slice
when trimming would empty it, so a truncation of non-empty input never
returns empty; and
`CleanHTML("<p>Hello <strong>world</strong>!<script>bad()</script></p>", 2048)`
equals `"Hello world!"` with the tree the HTML parser produces for that
fragment. -/
theorem cleanHTML_spec (parse : Str → Option HNode) (input s : Str) (m : Int)
    (hm : 0 < m) :
    ((cleanHTML parse input m).length : Int) ≤ m ∧
    ((s.length : Int) > m →
      (goTrimSpace (s.take m.toNat) ≠ [] →
        truncateR s m = goTrimSpace (s.take m.toNat)) ∧
      (goTrimSpace (s.take m.toNat) = [] → truncateR s m = s.take m.toNat)) ∧
    (s ≠ [] → truncateR s m ≠ []) ∧
    cleanHTML exampleParse
        (strOf "<p>Hello <strong>world</strong>!<script>bad()</script></p>")
        2048 =
      strOf "Hello world!" := by
  refine ⟨cleanHTML_length parse input m hm,
    fun hgt => truncateR_trim s m hm hgt,
    truncateR_nonempty s m hm, ?_⟩
  decide

/-- Witness for C7 at concrete inputs. -/
theorem cleanHTML_spec_witness :
    (0 : Int) < 5 ∧
      (((cleanHTML (fun _ => none) (strOf "abcdefgh") 5).length : Int) ≤ 5 ∧
        (((strOf "abcdefgh").length : Int) > 5 →
          (goTrimSpace ((strOf "abcdefgh").take (5 : Int).toNat) ≠ [] →
            truncateR (strOf "abcdefgh") 5 =
              goTrimSpace ((strOf "abcdefgh").take (5 : Int).toNat)) ∧
          (goTrimSpace ((strOf "abcdefgh").take (5 : Int).toNat) = [] →
            truncateR (strOf "abcdefgh") 5 =
              (strOf "abcdefgh").take (5 : Int).toNat)) ∧
        (strOf "abcdefgh" ≠ [] → truncateR (strOf "abcdefgh") 5 ≠ []) ∧
        cleanHTML exampleParse
            (strOf "<p>Hello <strong>world</strong>!<script>bad()</script></p>")
            2048 =
          strOf "Hello world!") :=
  ⟨by decide,
    cleanHTML_spec (fun _ => none) (strOf "abcdefgh") (strOf "abcdefgh") 5
      (by decide)⟩

mutual

theorem textsOf_ne (n : HNode) : ∀ t ∈ textsOf n, t ≠ [] := by
  cases n with
  | elem name children =>
    intro t ht
    unfold textsOf at ht
    split at ht
    · cases ht
    · exact textsOfList_ne children t ht
  | text s =>
    intro t ht
    unfold textsOf at ht
    dsimp only at ht
    split at ht
    · cases ht
    · rename_i hne
      rcases List.mem_singleton.mp ht with rfl
      exact hne

theorem textsOfList_ne (ns : List HNode) : ∀ t ∈ textsOfList ns, t ≠ [] := by
  cases ns with
  | nil => intro t ht; cases ht
  | cons n ns =>
    intro t ht
    unfold textsOfList at ht
    rcases List.mem_append.mp ht with h1 | h2
    · exact textsOf_ne n t h1
    · exact textsOfList_ne ns t h2

end

theorem joinTexts_append (ts1 ts2 : List Str) (h1 : ts1 ≠ []) (h2 : ts2 ≠ []) :
    joinTexts (ts1 ++ ts2) = joinTexts ts1 ++ ' ' :: joinTexts ts2 := by
  induction ts1 with
  | nil => exact absurd rfl h1
  | cons t ts ih =>
    cases ts with
    | nil =>
      cases ts2 with
      | nil => exact absurd rfl h2
      | cons u us => simp [joinTexts]
    | cons t2 ts' =>
      have : joinTexts ((t :: t2 :: ts') ++ ts2) =
          t ++ ' ' :: joinTexts ((t2 :: ts') ++ ts2) := by
        simp only [List.cons_append]
        rfl
      rw [this, ih (by simp)]
      simp [joinTexts]

theorem joinTexts_ne (ts : List Str) (hts : ts ≠ []) (h : ∀ t ∈ ts, t ≠ []) :
    joinTexts ts ≠ [] := by
  cases ts with
  | nil => exact absurd rfl hts
  | cons t ts2 =>
    cases ts2 with
    | nil =>
      simpa [joinTexts] using h t (by simp)
    | cons u us =>
      show t ++ ' ' :: joinTexts (u :: us) ≠ []
      simp

theorem joinAcc_append (acc : Str) (ts1 ts2 : List Str)
    (h1 : ∀ t ∈ ts1, t ≠ []) :
    joinAcc (joinAcc acc ts1) ts2 = joinAcc acc (ts1 ++ ts2) := by
  by_cases e1 : ts1 = []
  · subst e1
    simp [joinAcc]
  · by_cases e2 : ts2 = []
    · subst e2
      simp [joinAcc, e1]
    · have hne : ts1 ++ ts2 ≠ [] := by
        intro habs
        exact e1 (List.append_eq_nil.mp habs).1
      by_cases ha : acc = []
      · subst ha
        simp only [joinAcc, if_neg e1, if_neg e2, if_neg hne, if_pos rfl,
          if_true]
        rw [if_neg (joinTexts_ne ts1 e1 h1)]
        exact (joinTexts_append ts1 ts2 e1 e2).symm
      · simp only [joinAcc, if_neg e1, if_neg e2, if_neg hne, if_neg ha]
        rw [if_neg (by simp : ¬ acc ++ ' ' :: joinTexts ts1 = [])]
        rw [joinTexts_append ts1 ts2 e1 e2]
        simp

mutual

theorem walkNode_texts (n : HNode) (acc : Str) :
    walkNode n acc = joinAcc acc (textsOf n) := by
  cases n with
  | elem name children =>
    unfold walkNode textsOf
    split
    · simp [joinAcc]
    · exact walkNodes_texts children acc
  | text s =>
    unfold walkNode textsOf
    dsimp only
    by_cases ht : collapseWhitespace (unescapeHTML s) = []
    · simp [ht, joinAcc]
    · rw [if_neg ht, if_neg ht]
      by_cases ha : acc = []
      · simp [ha, joinAcc, ht, joinTexts]
      · simp [ha, joinAcc, joinTexts]

theorem walkNodes_texts (ns : List HNode) (acc : Str) :
    walkNodes ns acc = joinAcc acc (textsOfList ns) := by
  cases ns with
  | nil => simp [walkNodes, textsOfList, joinAcc]
  | cons n ns =>
    show walkNodes ns (walkNode n acc) = joinAcc acc (textsOfList (n :: ns))
    rw [walkNodes_texts ns (walkNode n acc), walkNode_texts n acc]
    rw [joinAcc_append acc (textsOf n) (textsOfList ns) (textsOf_ne n)]
    rfl

end

/-- Claim C9 (amended): for every fragment tree, the text extracted by
`walk` is the sequence of collapsed non-empty text segments outside
script/style subtrees joined with exactly one space between consecutive
segments — regardless of whether they are separated by an inline or a
block element boundary. -/
theorem walk_single_space_join (n : HNode) :
    walkNode n [] = joinTexts (textsOf n) := by
  rw [walkNode_texts n []]
  unfold joinAcc
  by_cases h : textsOf n = []
  · simp [h, joinTexts]
  · simp [h]

/-- Counterexample to C9 as stated: for two adjacent inline elements
(`<strong>Hello</strong><em>world</em>`) the sanitizer output is
"Hello world" — a space is inserted across the inline-element boundary
rather than the claimed concatenation "Helloworld". -/
theorem walk_inline_space_counterexample :
    walkNode inlineTree [] = strOf "Hello world" ∧
      ¬ walkNode inlineTree [] = strOf "Helloworld" := by
  refine ⟨by decide, by decide⟩

/-- Claim C4 (amended): the fingerprint persisted with an entry is the
deterministic hash of `(sourceId, guid, itemURL, title, sanitizedText)`,
where `itemURL` is the item module's own URL normalization of the link —
computed before FetchFeed overwrites the stored URL with the urlcanon
canonical form, so the hashed URL can differ from the stored canonical
URL; two fetches of unchanged content (same guid, title, link, content
and description) yield an identical fingerprint. -/
theorem fingerprint_spec (parse : Str → Option HNode) (feedID : Str)
    (fi fi2 : GoFeedItem)
    (hg : fi.guid = fi2.guid) (ht : fi.title = fi2.title)
    (hl : fi.link = fi2.link) (hc : fi.content = fi2.content)
    (hd : fi.description = fi2.description) :
    (deriveItemParams parse feedID fi).hash =
      hashStream [feedID, (fromFeedItem parse feedID fi).guid.getD [],
        (fromFeedItem parse feedID fi).url,
        (fromFeedItem parse feedID fi).title,
        (fromFeedItem parse feedID fi).contentText] ∧
    (fromFeedItem parse feedID fi).url =
      normalizeURLitem (firstNonEmptyLink fi.link) ∧
    (deriveItemParams parse feedID fi).url =
      urlNormalize (normalizeURLitem (firstNonEmptyLink fi.link)) ∧
    (deriveItemParams parse feedID fi).hash =
      (deriveItemParams parse feedID fi2).hash := by
  refine ⟨?_, ?_, ?_, ?_⟩ <;>
    [skip; skip; skip;
     (cases fi; cases fi2;
      simp only at hg ht hl hc hd;
      subst hg; subst ht; subst hl; subst hc; subst hd)] <;>
  simp only [deriveItemParams, fromFeedItem]

/-- Witness for the amended C4: two items identical except for author and
published timestamp hash identically. -/
theorem fingerprint_spec_witness :
    ((⟨strOf "g", strOf "T", strOf "L", strOf "c", strOf "d", none, false⟩ :
        GoFeedItem).guid =
      (⟨strOf "g", strOf "T", strOf "L", strOf "c", strOf "d",
        some (strOf "A"), true⟩ : GoFeedItem).guid) ∧
    ((deriveItemParams (fun _ => none) (strOf "f")
        ⟨strOf "g", strOf "T", strOf "L", strOf "c", strOf "d", none, false⟩).hash =
      (deriveItemParams (fun _ => none) (strOf "f")
        ⟨strOf "g", strOf "T", strOf "L", strOf "c", strOf "d",
          some (strOf "A"), true⟩).hash) :=
  ⟨rfl,
    (fingerprint_spec (fun _ => none) (strOf "f")
      ⟨strOf "g", strOf "T", strOf "L", strOf "c", strOf "d", none, false⟩
      ⟨strOf "g", strOf "T", strOf "L", strOf "c", strOf "d",
        some (strOf "A"), true⟩
      rfl rfl rfl rfl rfl).2.2.2⟩

set_option maxHeartbeats 2000000 in
/-- Counterexample to C4 as stated: for the link
`https://www.example.com/x` the stored canonical URL is
`https://example.com/x` (urlcanon strips `www.`), but the persisted
fingerprint hashes the pre-canonicalization URL
`https://www.example.com/x`, so it is not the hash of the tuple containing
the stored canonical URL. -/
theorem fingerprint_url_counterexample :
    (deriveItemParams (fun _ => none) (strOf "f1")
        ⟨strOf "g1", strOf "T", strOf "https://www.example.com/x",
          [], [], none, false⟩).url = strOf "https://example.com/x" ∧
    (deriveItemParams (fun _ => none) (strOf "f1")
        ⟨strOf "g1", strOf "T", strOf "https://www.example.com/x",
          [], [], none, false⟩).hash =
      hashStream [strOf "f1", strOf "g1", strOf "https://www.example.com/x",
        strOf "T", []] ∧
    ¬ (deriveItemParams (fun _ => none) (strOf "f1")
        ⟨strOf "g1", strOf "T", strOf "https://www.example.com/x",
          [], [], none, false⟩).hash =
      hashStream [strOf "f1", strOf "g1",
        (deriveItemParams (fun _ => none) (strOf "f1")
          ⟨strOf "g1", strOf "T", strOf "https://www.example.com/x",
            [], [], none, false⟩).url,
        strOf "T", []] := by
  refine ⟨by decide, by decide, by decide⟩

theorem splitOnChar_ne_nil (sep : Char) (s : Str) : splitOnChar sep s ≠ [] := by
  cases s with
  | nil => simp [splitOnChar]
  | cons c rest =>
    simp only [splitOnChar]
    by_cases h : c = sep
    · simp [h]
    · simp only [h, if_false, Bool.false_eq_true, reduceIte]
      cases splitOnChar sep rest <;> simp

theorem splitOnChar_append_sep (sep : Char) (xs : Str) :
    splitOnChar sep (xs ++ sep :: []) = splitOnChar sep xs ++ ([] : Str) :: [] := by
  induction xs with
  | nil => simp [splitOnChar]
  | cons c rest ih =>
    simp only [List.cons_append, splitOnChar]
    by_cases h : c = sep
    · simp [h, ih]
    · simp only [h, if_false, Bool.false_eq_true, reduceIte]
      cases hr : splitOnChar sep rest with
      | nil => exact absurd hr (splitOnChar_ne_nil sep rest)
      | cons w ws =>
        simp only [List.append_eq]
        rw [ih, hr]
        simp

theorem cleanSegs_trailing_empty (segs : List Str) :
    ∀ (acc : List Str) (rooted : Bool),
      cleanSegs acc (segs ++ ([] : Str) :: []) rooted = cleanSegs acc segs rooted := by
  induction segs with
  | nil =>
    intro acc rooted
    simp [cleanSegs]
  | cons s rest ih =>
    intro acc rooted
    simp only [List.cons_append, cleanSegs]
    by_cases h1 : s.isEmpty || s = strOf "."
    · simp only [h1, if_true, reduceIte]
      exact ih acc rooted
    · simp only [h1, if_false, Bool.false_eq_true, reduceIte]
      by_cases h2 : s = strOf ".."
      · simp only [h2, if_true, reduceIte]
        cases acc with
        | nil =>
          cases rooted <;> simp only [reduceIte] <;> apply ih
        | cons a acc2 =>
          by_cases h3 : a = strOf ".."
          · simp only [h3, if_true, reduceIte]
            apply ih
          · simp only [h3, if_false, Bool.false_eq_true, reduceIte]
            apply ih
      · simp only [h2, if_false, Bool.false_eq_true, reduceIte]
        apply ih

theorem pathClean_trailing_slash (p : Str) (hp : ¬ p = []) :
    pathClean (p ++ '/' :: []) = pathClean p := by
  unfold pathClean
  have hne : ¬ (p ++ '/' :: []).isEmpty = true := by
    cases p <;> simp
  have hne2 : ¬ p.isEmpty = true := by
    cases p with
    | nil => exact absurd rfl hp
    | cons a b => simp
  rw [if_neg hne, if_neg hne2]
  have hhead : (p ++ '/' :: []).head? = p.head? := by
    cases p with
    | nil => exact absurd rfl hp
    | cons a b => simp
  rw [hhead]
  simp only [splitOnChar_append_sep, cleanSegs_trailing_empty]

theorem lowerStr_www (h : Str) :
    lowerStr (strOf "www." ++ h) = strOf "www." ++ lowerStr h := by
  simp only [lowerStr, List.map_append]
  rfl

theorem isPrefixOf_www_append (t : Str) :
    (strOf "www.").isPrefixOf (strOf "www." ++ t) = true := by
  simp [strOf, List.isPrefixOf]

set_option maxHeartbeats 1000000 in
/-- Claim C6 (amended): URL normalization maps two URLs that differ only
in tracking parameters (within a non-empty query), default port, a single
leading `www.` label whose remainder does not itself begin with `www.`,
trailing slash, or fragment to identical strings; the quoted concrete
example holds; and every string that does not parse as an absolute URL
with a scheme is returned unchanged (after the whitespace trim the
function always applies). -/
theorem urlNormalize_c6 :
    (∀ s, parseURL (goTrimSpace s) = none → urlNormalize s = goTrimSpace s) ∧
    (urlNormalize (strOf " HTTPS://Example.COM:443/x/?utm_source=a&ref=b#f ") =
      urlNormalize (strOf "https://example.com/x?ref=b")) ∧
    (∀ (u : GoURL) (f : Str), normalizeParsed { u with fragment := f } = normalizeParsed u) ∧
    (∀ (u : GoURL), lowerStr u.scheme = strOf "http" →
      normalizeParsed { u with port := strOf "80" } =
        normalizeParsed { u with port := [] }) ∧
    (∀ (u : GoURL), lowerStr u.scheme = strOf "https" →
      normalizeParsed { u with port := strOf "443" } =
        normalizeParsed { u with port := [] }) ∧
    (∀ (u : GoURL) (h : Str), h ≠ [] → (strOf "www.").isPrefixOf (lowerStr h) = false →
      normalizeParsed { u with host := strOf "www." ++ h } =
        normalizeParsed { u with host := h }) ∧
    (∀ (u : GoURL) (p : Str), normalizeParsed { u with path := p ++ '/' :: [] } =
      normalizeParsed { u with path := p }) ∧
    (∀ (u : GoURL) (r1 r2 : Str), r1 ≠ [] → r2 ≠ [] → trackFilter r1 = trackFilter r2 →
      normalizeParsed { u with hasQuery := true, rawQuery := r1 } =
        normalizeParsed { u with hasQuery := true, rawQuery := r2 }) := by
  refine ⟨?_, ?_, ?_, ?_, ?_, ?_, ?_, ?_⟩
  · intro s hp
    unfold urlNormalize
    by_cases ht : (goTrimSpace s).isEmpty
    · rw [if_pos ht]
      exact (List.isEmpty_iff.mp ht).symm
    · rw [if_neg ht, hp]
  · decide
  · intro u f
    cases u
    rfl
  · intro u hs
    cases u
    simp only [normalizeParsed] at hs ⊢
    rw [hs]
    norm_num
  · intro u hs
    cases u
    simp only [normalizeParsed] at hs ⊢
    rw [hs]
    norm_num
  · intro u h hne hpre
    cases u
    simp only [normalizeParsed]
    rw [lowerStr_www, isPrefixOf_www_append, hpre]
    have hlen : (strOf "www." ++ lowerStr h).length > 4 := by
      have hm : (lowerStr h).length = h.length := List.length_map _ _
      cases h with
      | nil => exact absurd rfl hne
      | cons a b =>
        simp only [List.length_append, hm]
        simp [strOf]
    rw [decide_eq_true hlen]
    simp only [Bool.true_and, Bool.false_and, if_true, if_false,
      Bool.false_eq_true, reduceIte]
    have hdrop : (strOf "www." ++ lowerStr h).drop 4 = lowerStr h := by
      rw [show (4 : Nat) = (strOf "www.").length from rfl, List.drop_left]
    rw [hdrop]
  · intro u p
    cases u
    simp only [normalizeParsed]
    by_cases hp : p = []
    · subst hp
      norm_num
      rfl
    · have h1 : ¬ (p ++ '/' :: []).isEmpty = true := by cases p <;> simp
      have h2 : ¬ p.isEmpty = true := by
        cases p with
        | nil => exact absurd rfl hp
        | cons a b => simp
      simp only [h1, h2, Bool.not_false, if_true, if_false, Bool.false_eq_true,
        reduceIte, pathClean_trailing_slash p hp]
  · intro u r1 r2 h1 h2 hf
    cases u
    simp only [normalizeParsed]
    have e1 : ¬ r1.isEmpty = true := by
      cases r1 with
      | nil => exact absurd rfl h1
      | cons a b => simp
    have e2 : ¬ r2.isEmpty = true := by
      cases r2 with
      | nil => exact absurd rfl h2
      | cons a b => simp
    simp only [e1, e2, Bool.not_false, if_true, reduceIte, hf,
      Bool.and_false, Bool.false_or]

/-- Witness for the amended C6 at the unparsable-input clause. -/
theorem urlNormalize_c6_witness :
    parseURL (goTrimSpace (strOf "not a url")) = none ∧
      urlNormalize (strOf "not a url") = goTrimSpace (strOf "not a url") :=
  ⟨by decide, urlNormalize_c6.1 (strOf "not a url") (by decide)⟩

set_option maxHeartbeats 2000000 in
/-- Counterexample to C6 as stated: `https://www.www.example.com/x` and
`https://www.example.com/x` differ only in a leading `www.` label, yet
they normalize to different strings, because Normalize strips exactly one
leading `www.` label. -/
theorem www_equivalence_counterexample :
    urlNormalize (strOf "https://www.www.example.com/x") =
        strOf "https://www.example.com/x" ∧
      urlNormalize (strOf "https://www.example.com/x") =
        strOf "https://example.com/x" ∧
      ¬ urlNormalize (strOf "https://www.www.example.com/x") =
          urlNormalize (strOf "https://www.example.com/x") := by
  refine ⟨by decide, by decide, by decide⟩

set_option maxHeartbeats 2000000 in
/-- Counterexample to C10 as stated: normalization is not idempotent on
`https://www.www.example.com/x` — the first pass strips one `www.` label
and the second pass strips another. -/
theorem urlNormalize_idem_counterexample :
    ¬ urlNormalize (urlNormalize (strOf "https://www.www.example.com/x")) =
        urlNormalize (strOf "https://www.www.example.com/x") := by
  decide

theorem charEqOfToNat (a b : Char) (h : a.toNat = b.toNat) : a = b :=
  Char.eq_of_val_eq (UInt32.ext h)

theorem charEq_iff_toNat (a b : Char) : a = b ↔ a.toNat = b.toNat :=
  ⟨fun h => h ▸ rfl, charEqOfToNat a b⟩

theorem toNatOfNatValid (n : Nat) (h : Nat.isValidChar n) :
    (Char.ofNat n).toNat = n := by
  unfold Char.ofNat
  rw [dif_pos h]
  rfl

theorem toLowerChar_toNat (c : Char) :
    (toLowerChar c).toNat =
      if 65 ≤ c.toNat ∧ c.toNat ≤ 90 then c.toNat + 32 else c.toNat := by
  unfold toLowerChar
  by_cases h : 'A' ≤ c ∧ c ≤ 'Z'
  · rw [if_pos h, if_pos ⟨h.1, h.2⟩]
    exact toNatOfNatValid _ (Or.inl (by
      have : c.toNat ≤ 90 := h.2
      omega))
  · rw [if_neg h, if_neg (fun h2 => h ⟨h2.1, h2.2⟩)]

theorem isUpper_toNat (c : Char) :
    c.isUpper = (decide (65 ≤ c.toNat) && decide (c.toNat ≤ 90)) := rfl

theorem isLower_toNat (c : Char) :
    c.isLower = (decide (97 ≤ c.toNat) && decide (c.toNat ≤ 122)) := rfl

theorem isDigit_toNat (c : Char) :
    c.isDigit = (decide (48 ≤ c.toNat) && decide (c.toNat ≤ 57)) := rfl

theorem isAlpha_lower (c : Char) :
    (toLowerChar c).isAlpha = c.isAlpha := by
  have h := toLowerChar_toNat c
  rw [Bool.eq_iff_iff]
  simp only [Char.isAlpha, isUpper_toNat, isLower_toNat, Bool.or_eq_true,
    Bool.and_eq_true, decide_eq_true_eq, h]
  split_ifs <;> omega

theorem isDigit_lower (c : Char) :
    (toLowerChar c).isDigit = c.isDigit := by
  have h := toLowerChar_toNat c
  rw [Bool.eq_iff_iff]
  simp only [isDigit_toNat, Bool.and_eq_true, decide_eq_true_eq, h]
  split_ifs <;> omega

theorem toLowerChar_eq_symbol (c d : Char)
    (hd1 : ¬ (97 ≤ d.toNat ∧ d.toNat ≤ 122)) :
    (toLowerChar c = d) ↔ (c = d ∧ ¬ (65 ≤ c.toNat ∧ c.toNat ≤ 90)) ∨
      (c.toNat + 32 = d.toNat ∧ 65 ≤ c.toNat ∧ c.toNat ≤ 90) := by
  rw [charEq_iff_toNat, toLowerChar_toNat, charEq_iff_toNat]
  split_ifs with h
  · constructor
    · intro he
      exact Or.inr ⟨he, h⟩
    · rintro (⟨-, hn⟩ | ⟨he, -⟩)
      · exact absurd h hn
      · exact he
  · constructor
    · intro he
      exact Or.inl ⟨he, h⟩
    · rintro (⟨he, -⟩ | ⟨-, hr⟩)
      · exact he
      · exact absurd hr h

theorem toLowerChar_eq_sym (c d : Char)
    (hd1 : ¬ (97 ≤ d.toNat ∧ d.toNat ≤ 122))
    (hd2 : ¬ (65 ≤ d.toNat ∧ d.toNat ≤ 90)) :
    (toLowerChar c = d) ↔ c = d := by
  rw [toLowerChar_eq_symbol c d hd1]
  constructor
  · rintro (⟨he, -⟩ | ⟨he, hr1, hr2⟩)
    · exact he
    · exact absurd ⟨by omega, by omega⟩ hd1
  · intro he
    subst he
    refine Or.inl ⟨rfl, fun hr => hd2 ⟨hr.1, hr.2⟩⟩

theorem schemeChar_lower (c : Char) :
    schemeChar (toLowerChar c) = schemeChar c := by
  have h43 : ('+' : Char).toNat = 43 := rfl
  have h45 : ('-' : Char).toNat = 45 := rfl
  have h46 : ('.' : Char).toNat = 46 := rfl
  rw [Bool.eq_iff_iff]
  simp only [schemeChar, Char.isAlpha, isUpper_toNat, isLower_toNat,
    isDigit_toNat, Bool.or_eq_true, Bool.and_eq_true, decide_eq_true_eq,
    charEq_iff_toNat, toLowerChar_toNat, h43, h45, h46]
  split_ifs <;> omega

theorem goIsSpace_lower (c : Char) :
    goIsSpace (toLowerChar c) = goIsSpace c := by
  have h32 : (' ' : Char).toNat = 32 := rfl
  have h9 : ('\t' : Char).toNat = 9 := rfl
  have h10 : ('\n' : Char).toNat = 10 := rfl
  have h11 : ('\x0b' : Char).toNat = 11 := rfl
  have h12 : ('\x0c' : Char).toNat = 12 := rfl
  have h13 : ('\r' : Char).toNat = 13 := rfl
  have h133 : (Char.ofNat 133).toNat = 133 := rfl
  have h160 : (Char.ofNat 160).toNat = 160 := rfl
  rw [Bool.eq_iff_iff]
  simp only [goIsSpace, Bool.or_eq_true, decide_eq_true_eq, charEq_iff_toNat,
    toLowerChar_toNat, h32, h9, h10, h11, h12, h13, h133, h160]
  split_ifs <;> omega

theorem lowerChar_eq_slash (c : Char) : (toLowerChar c = '/') ↔ c = '/' :=
  toLowerChar_eq_sym c '/' (by decide) (by decide)

theorem lowerChar_eq_qmark (c : Char) : (toLowerChar c = '?') ↔ c = '?' :=
  toLowerChar_eq_sym c '?' (by decide) (by decide)

theorem lowerChar_eq_hashc (c : Char) : (toLowerChar c = '#') ↔ c = '#' :=
  toLowerChar_eq_sym c '#' (by decide) (by decide)

theorem lowerChar_eq_colon (c : Char) : (toLowerChar c = ':') ↔ c = ':' :=
  toLowerChar_eq_sym c ':' (by decide) (by decide)

theorem lowerChar_eq_at (c : Char) : (toLowerChar c = '@') ↔ c = '@' :=
  toLowerChar_eq_sym c '@' (by decide) (by decide)

theorem lowerChar_eq_rbrack (c : Char) : (toLowerChar c = ']') ↔ c = ']' :=
  toLowerChar_eq_sym c ']' (by decide) (by decide)

theorem lowerChar_eq_pct (c : Char) : (toLowerChar c = '%') ↔ c = '%' :=
  toLowerChar_eq_sym c '%' (by decide) (by decide)

theorem mem_lowerStr_sym (s : Str) (d : Char)
    (hiff : ∀ c, (toLowerChar c = d) ↔ c = d) :
    d ∈ lowerStr s ↔ d ∈ s := by
  unfold lowerStr
  rw [List.mem_map]
  constructor
  · rintro ⟨c, hc, he⟩
    exact ((hiff c).mp he) ▸ hc
  · intro hd
    exact ⟨d, hd, (hiff d).mpr rfl⟩

theorem takeWhile_app_all (p : Char → Bool) (xs ys : Str)
    (h : ∀ c ∈ xs, p c = true) :
    (xs ++ ys).takeWhile p = xs ++ ys.takeWhile p := by
  induction xs with
  | nil => rfl
  | cons c rest ih =>
    simp only [List.cons_append, List.takeWhile_cons,
      h c (List.mem_cons_self c rest), if_true, reduceIte]
    rw [ih (fun a ha => h a (List.mem_cons_of_mem c ha))]

theorem takeWhile_all_eq (p : Char → Bool) (xs : Str)
    (h : ∀ c ∈ xs, p c = true) : xs.takeWhile p = xs := by
  have := takeWhile_app_all p xs [] h
  simpa using this

theorem parseURL_guard (t : Str) (u : GoURL) (h : parseURL t = some u) :
    t.any (fun c => goIsSpace c || c = '%') = false := by
  unfold parseURL at h
  split at h
  · exact absurd h (by simp)
  · rename_i hg
    simpa using hg


theorem contains_false_iff (l : Str) (c : Char) :
    l.contains c = false ↔ c ∉ l := by
  rw [← Bool.not_eq_true]
  exact not_congr List.elem_iff

theorem splitHostPort_facts (a hs ps : Str)
    (hsp : splitHostPort a = some (hs, ps)) :
    (∀ c ∈ hs, c ∈ a) ∧ ps.all Char.isDigit = true ∧
      (':' ∈ hs → ']' ∉ hs) := by
  unfold splitHostPort at hsp
  split at hsp
  · rename_i rest
    dsimp only at hsp
    have hsub : ∀ c ∈ rest.takeWhile (fun c => !(c = ']')), c ∈ '[' :: rest :=
      fun c hc => List.mem_cons_of_mem _ ((List.takeWhile_sublist _).mem hc)
    have hnr : ']' ∉ rest.takeWhile (fun c => !(c = ']')) := by
      intro hmem
      have := List.mem_takeWhile_imp hmem
      simp at this
    split at hsp
    · rename_i heq
      simp only [Option.some.injEq, Prod.mk.injEq] at hsp
      obtain ⟨h1, h2⟩ := hsp
      subst h1; subst h2
      exact ⟨hsub, rfl, fun _ => hnr⟩
    · rename_i p heq
      split at hsp
      · rename_i hdig
        simp only [Option.some.injEq, Prod.mk.injEq] at hsp
        obtain ⟨h1, h2⟩ := hsp
        subst h1; subst h2
        exact ⟨hsub, by simpa using hdig, fun _ => hnr⟩
      · exact absurd hsp (by simp)
    · exact absurd hsp (by simp)
  · split at hsp
    · rename_i hcol
      dsimp only at hsp
      split at hsp
      · exact absurd hsp (by simp)
      · rename_i hnc
        split at hsp
        · rename_i hdig
          simp only [Option.some.injEq, Prod.mk.injEq] at hsp
          obtain ⟨h1, h2⟩ := hsp
          subst h1; subst h2
          refine ⟨fun c hc => (List.take_sublist _ _).mem hc,
            by simpa using hdig, ?_⟩
          intro hc
          exact absurd hc ((contains_false_iff _ _).mp (by simpa using hnc))
        · exact absurd hsp (by simp)
    · rename_i hcol
      simp only [Option.some.injEq, Prod.mk.injEq] at hsp
      obtain ⟨h1, h2⟩ := hsp
      subst h1; subst h2
      refine ⟨fun c hc => hc, rfl, ?_⟩
      intro hc
      exact absurd hc ((contains_false_iff _ _).mp (by simpa using hcol))

theorem toLowerChar_idem (c : Char) :
    toLowerChar (toLowerChar c) = toLowerChar c := by
  apply charEqOfToNat
  rw [toLowerChar_toNat (toLowerChar c), toLowerChar_toNat c]
  split_ifs <;> omega

theorem lowerStr_idem (s : Str) : lowerStr (lowerStr s) = lowerStr s := by
  unfold lowerStr
  rw [List.map_map]
  exact List.map_congr_left (fun c _ => toLowerChar_idem c)

theorem lowerStr_drop (s : Str) (n : Nat) :
    lowerStr (s.drop n) = (lowerStr s).drop n := by
  unfold lowerStr
  exact List.map_drop _ _ _

theorem dropWhile_all_false {α : Type} (p : α → Bool) (l : List α)
    (h : ∀ c ∈ l, p c = false) : l.dropWhile p = l := by
  cases l with
  | nil => rfl
  | cons c rest =>
    rw [List.dropWhile_cons, if_neg (by simp [h c (List.mem_cons_self c rest)])]

theorem dropWhile_idem {α : Type} (p : α → Bool) (l : List α) :
    (l.dropWhile p).dropWhile p = l.dropWhile p := by
  cases hd : l.dropWhile p with
  | nil => rfl
  | cons c rest =>
    rw [List.dropWhile_cons, if_neg (by simp [dropWhile_head_false p l c rest hd])]

theorem goTrimSpace_no_space (s : Str)
    (h : ∀ c ∈ s, goIsSpace c = false) : goTrimSpace s = s := by
  unfold goTrimSpace
  rw [dropWhile_all_false _ _ h,
    dropWhile_all_false _ _ (fun c hc => h c (List.mem_reverse.mp hc)),
    List.reverse_reverse]

theorem goTrimSpace_idem (s : Str) :
    goTrimSpace (goTrimSpace s) = goTrimSpace s := by
  unfold goTrimSpace
  set d1 := s.dropWhile goIsSpace with hd1
  set r := d1.reverse.dropWhile goIsSpace with hr
  have h1 : r.reverse.dropWhile goIsSpace = r.reverse := by
    cases hc : r.reverse with
    | nil => rfl
    | cons c cs =>
      have hsuf : r <:+ d1.reverse := hr ▸ List.dropWhile_suffix _
      have hpre : r.reverse <+: d1 := by
        have h2 := List.reverse_prefix.mpr hsuf
        simpa using h2
      obtain ⟨tl, htl⟩ := hpre
      rw [hc] at htl
      have hhd : d1.dropWhile goIsSpace = c :: (cs ++ tl) := by
        rw [hd1, dropWhile_idem, ← hd1, ← htl]
        simp
      have hcfalse : goIsSpace c = false := dropWhile_head_false _ d1 c _ hhd
      rw [List.dropWhile_cons, if_neg (by simp [hcfalse])]
  rw [h1, List.reverse_reverse, hr, dropWhile_idem]

theorem parseURL_inv (t : Str) (u : GoURL) (h : parseURL t = some u) :
    u.scheme = t.takeWhile schemeChar ∧
    (∃ c0 cs, u.scheme = c0 :: cs ∧ c0.isAlpha = true) ∧
    ∃ rest1 rest2,
      t.drop u.scheme.length = ':' :: '/' :: '/' :: rest1 ∧
      (let auth := rest1.takeWhile (fun c => !(c = '/' || c = '?' || c = '#'))
       auth.isEmpty = false ∧ auth.contains '@' = false ∧
       splitHostPort auth = some (u.host, u.port) ∧
       rest2 = rest1.drop auth.length) ∧
      u.path = rest2.takeWhile (fun c => !(c = '?' || c = '#')) ∧
      (rest2.drop u.path.length = [] ∧ u.hasQuery = false ∧ u.rawQuery = [] ∨
        (∃ f, rest2.drop u.path.length = '#' :: f) ∧ u.hasQuery = false ∧
          u.rawQuery = [] ∨
        ∃ r, rest2.drop u.path.length = '?' :: r ∧ u.hasQuery = true ∧
          u.rawQuery = r.takeWhile (fun c => !(c = '#'))) := by
  unfold parseURL at h
  split at h
  · exact absurd h (by simp)
  · dsimp only at h
    split at h
    · exact absurd h (by simp)
    · rename_i c0 hhead
      split at h
      · exact absurd h (by simp)
      · rename_i halpha
        split at h
        · rename_i rest1 hdrop
          split at h
          · exact absurd h (by simp)
          · rename_i hguard2
            split at h
            · exact absurd h (by simp)
            · rename_i hh pp hsplit
              have halpha2 : c0.isAlpha = true := by
                simpa using halpha
              have hg2 := hguard2
              rw [Bool.or_eq_true] at hg2
              push_neg at hg2
              have hsch : ∃ cs, List.takeWhile schemeChar t = c0 :: cs := by
                cases hsc : List.takeWhile schemeChar t with
                | nil => rw [hsc] at hhead; simp at hhead
                | cons a l =>
                  rw [hsc] at hhead
                  simp only [List.head?_cons, Option.some.injEq] at hhead
                  exact ⟨l, by rw [hhead]⟩
              obtain ⟨cs, hsc⟩ := hsch
              split at h
              · rename_i r hq
                simp only [Option.some.injEq] at h
                subst h
                refine ⟨rfl, ⟨c0, cs, hsc, halpha2⟩, rest1, _, hdrop, ⟨?_, ?_, hsplit, rfl⟩, rfl, ?_⟩
                · simpa using hg2.1
                · simpa using hg2.2
                · exact Or.inr (Or.inr ⟨r, hq, rfl, rfl⟩)
              · rename_i f hf
                simp only [Option.some.injEq] at h
                subst h
                refine ⟨rfl, ⟨c0, cs, hsc, halpha2⟩, rest1, _, hdrop, ⟨?_, ?_, hsplit, rfl⟩, rfl, ?_⟩
                · simpa using hg2.1
                · simpa using hg2.2
                · exact Or.inr (Or.inl ⟨⟨f, hf⟩, rfl, rfl⟩)
              · rename_i hno1 hno2
                simp only [Option.some.injEq] at h
                subst h
                refine ⟨rfl, ⟨c0, cs, hsc, halpha2⟩, rest1, _, hdrop, ⟨?_, ?_, hsplit, rfl⟩, rfl, ?_⟩
                · simpa using hg2.1
                · simpa using hg2.2
                · refine Or.inl ⟨?_, rfl, rfl⟩
                  set rest2 := rest1.drop
                      (rest1.takeWhile
                        (fun c => !(c = '/' || c = '?' || c = '#'))).length with hrest2
                  rcases hrem : rest2.drop
                      (rest2.takeWhile (fun c => !(c = '?' || c = '#'))).length
                      with _ | ⟨c, rest⟩
                  · rfl
                  · exfalso
                    rw [drop_takeWhile_length] at hrem
                    have hc := dropWhile_head_false _ rest2 c rest hrem
                    simp at hc
                    rw [← drop_takeWhile_length] at hrem
                    by_cases hq : c = '?'
                    · subst hq
                      exact hno1 rest hrem
                    · have h2 := hc hq
                      subst h2
                      exact hno2 rest hrem
        · exact absurd h (by simp)

theorem intercalate_cons2 {α : Type} (s a b : List α) (l : List (List α)) :
    List.intercalate s (a :: b :: l) = a ++ s ++ List.intercalate s (b :: l) := by
  simp [List.intercalate, List.intersperse]

theorem intercalate_single {α : Type} (s a : List α) :
    List.intercalate s [a] = a := by
  simp [List.intercalate, List.intersperse]

theorem splitOnChar_mem_subset (sep : Char) (s : Str) (w : Str)
    (hw : w ∈ splitOnChar sep s) : ∀ c ∈ w, c ∈ s := by
  induction s generalizing w with
  | nil =>
    intro c hc
    simp only [splitOnChar, List.mem_singleton] at hw
    subst hw
    simp at hc
  | cons d rest ih =>
    intro c hc
    rw [splitOnChar] at hw
    by_cases hd : d = sep
    · rw [if_pos hd] at hw
      rcases List.mem_cons.mp hw with hw | hw
      · subst hw; simp at hc
      · exact List.mem_cons_of_mem d (ih w hw c hc)
    · rw [if_neg hd] at hw
      rcases hr : splitOnChar sep rest with _ | ⟨w0, ws⟩
      · exact absurd hr (splitOnChar_ne_nil sep rest)
      · rw [hr] at hw
        rcases List.mem_cons.mp hw with hw | hw
        · subst hw
          rcases List.mem_cons.mp hc with hc | hc
          · exact hc ▸ List.mem_cons_self d rest
          · exact List.mem_cons_of_mem d
              (ih w0 (hr ▸ List.mem_cons_self w0 ws) c hc)
        · exact List.mem_cons_of_mem d (ih w (hr ▸ List.mem_cons_of_mem w0 hw) c hc)

theorem mem_splitOnChar_no_sep (sep : Char) (s : Str) (w : Str)
    (hw : w ∈ splitOnChar sep s) : sep ∉ w := by
  induction s generalizing w with
  | nil =>
    simp only [splitOnChar, List.mem_singleton] at hw
    subst hw
    simp
  | cons d rest ih =>
    rw [splitOnChar] at hw
    by_cases hd : d = sep
    · rw [if_pos hd] at hw
      rcases List.mem_cons.mp hw with hw | hw
      · subst hw; simp
      · exact ih w hw
    · rw [if_neg hd] at hw
      rcases hr : splitOnChar sep rest with _ | ⟨w0, ws⟩
      · exact absurd hr (splitOnChar_ne_nil sep rest)
      · rw [hr] at hw
        rcases List.mem_cons.mp hw with hw | hw
        · subst hw
          intro hmem
          rcases List.mem_cons.mp hmem with hmem | hmem
          · exact hd hmem.symm
          · exact ih w0 (hr ▸ List.mem_cons_self w0 ws) hmem
        · exact ih w (hr ▸ List.mem_cons_of_mem w0 hw)

theorem mem_intercalate_decomp (sep : Char) (ws : List Str) (c : Char)
    (hc : c ∈ List.intercalate (sep :: []) ws) : c = sep ∨ ∃ w ∈ ws, c ∈ w := by
  induction ws with
  | nil => simp [List.intercalate] at hc
  | cons a l ih =>
    cases l with
    | nil =>
      rw [intercalate_single] at hc
      exact Or.inr ⟨a, List.mem_singleton_self a, hc⟩
    | cons b bs =>
      rw [intercalate_cons2] at hc
      rcases List.mem_append.mp hc with hc | hc
      · rcases List.mem_append.mp hc with hc | hc
        · exact Or.inr ⟨a, List.mem_cons_self a _, hc⟩
        · exact Or.inl (List.mem_singleton.mp hc)
      · rcases ih hc with hc | ⟨w, hw, hcw⟩
        · exact Or.inl hc
        · exact Or.inr ⟨w, List.mem_cons_of_mem a hw, hcw⟩

theorem splitOnChar_no_sep_id (sep : Char) (w : Str) (h : sep ∉ w) :
    splitOnChar sep w = [w] := by
  induction w with
  | nil => rfl
  | cons c rest ih =>
    have hc : ¬ c = sep := fun he => h (List.mem_cons.mpr (Or.inl he.symm))
    rw [splitOnChar, if_neg hc, ih (fun hm => h (List.mem_cons_of_mem c hm))]

theorem splitOnChar_append_cons (sep : Char) (a X : Str) (ha : sep ∉ a) :
    splitOnChar sep (a ++ sep :: X) = a :: splitOnChar sep X := by
  induction a with
  | nil => simp [splitOnChar]
  | cons c rest ih =>
    have hc : ¬ c = sep := fun he => ha (List.mem_cons.mpr (Or.inl he.symm))
    simp only [List.cons_append, splitOnChar]
    simp only [hc, if_false, Bool.false_eq_true, reduceIte, List.append_eq]
    rw [ih (fun hm => ha (List.mem_cons_of_mem c hm))]

theorem splitOnChar_intercalate (sep : Char) (ws : List Str)
    (hne : ws ≠ []) (h : ∀ w ∈ ws, sep ∉ w) :
    splitOnChar sep (List.intercalate (sep :: []) ws) = ws := by
  induction ws with
  | nil => exact absurd rfl hne
  | cons a l ih =>
    cases l with
    | nil =>
      rw [intercalate_single]
      exact splitOnChar_no_sep_id sep a (h a (List.mem_singleton_self a))
    | cons b bs =>
      rw [intercalate_cons2, List.append_assoc, List.singleton_append,
        splitOnChar_append_cons sep a _ (h a (List.mem_cons_self a _)),
        ih (by simp) (fun w hw => h w (List.mem_cons_of_mem a hw))]

theorem intercalate_getLast (s : Str) (ws : List Str) (w : Str) (hw : w ≠ []) :
    (List.intercalate s (ws ++ [w])).getLast? = w.getLast? := by
  induction ws with
  | nil => rw [List.nil_append, intercalate_single]
  | cons a as ih =>
    cases hx : as ++ [w] with
    | nil => simp at hx
    | cons b l =>
      rw [List.cons_append, hx, intercalate_cons2, ← hx]
      have hsome : (List.intercalate s (as ++ [w])).getLast?.isSome := by
        rw [ih]
        cases w with
        | nil => exact absurd rfl hw
        | cons d ds => simp [List.getLast?_concat, List.getLast?]
      rw [List.getLast?_append_of_ne_nil]
      · exact ih
      · intro hnil
        rw [hnil] at hsome
        simp at hsome

theorem cleanSegs_nil (acc : List Str) (rooted : Bool) :
    cleanSegs acc [] rooted = acc.reverse := rfl

theorem cleanSegs_cons (acc : List Str) (s : Str) (rest : List Str)
    (rooted : Bool) :
    cleanSegs acc (s :: rest) rooted =
      if s.isEmpty || s = strOf "." then cleanSegs acc rest rooted
      else if s = strOf ".." then
        (match acc with
         | [] =>
           if rooted then cleanSegs [] rest rooted
           else cleanSegs (strOf ".." :: []) rest rooted
         | a :: acc2 =>
           if a = strOf ".." then cleanSegs (s :: acc) rest rooted
           else cleanSegs acc2 rest rooted)
      else cleanSegs (s :: acc) rest rooted := rfl

theorem cleanSegs_mem (segs : List Str) : ∀ (acc : List Str) (rooted : Bool)
    (s : Str), s ∈ cleanSegs acc segs rooted → s ∈ acc ∨ s ∈ segs := by
  induction segs with
  | nil =>
    intro acc rooted s hs
    rw [cleanSegs_nil] at hs
    exact Or.inl (List.mem_reverse.mp hs)
  | cons a rest ih =>
    intro acc rooted s hs
    rw [cleanSegs_cons] at hs
    split at hs
    · rcases ih acc rooted s hs with h | h
      · exact Or.inl h
      · exact Or.inr (List.mem_cons_of_mem a h)
    · split at hs
      · rename_i hdd
        split at hs
        · split at hs
          · rcases ih [] rooted s hs with h | h
            · simp at h
            · exact Or.inr (List.mem_cons_of_mem a h)
          · rcases ih _ rooted s hs with h | h
            · rcases List.mem_singleton.mp h with h
              exact Or.inr (List.mem_cons.mpr (Or.inl (h.trans hdd.symm)))
            · exact Or.inr (List.mem_cons_of_mem a h)
        · rename_i b acc2
          split at hs
          · rcases ih _ rooted s hs with h | h
            · rcases List.mem_cons.mp h with h | h
              · exact Or.inr (List.mem_cons.mpr (Or.inl h))
              · exact Or.inl h
            · exact Or.inr (List.mem_cons_of_mem a h)
          · rcases ih acc2 rooted s hs with h | h
            · exact Or.inl (List.mem_cons_of_mem b h)
            · exact Or.inr (List.mem_cons_of_mem a h)
      · rcases ih _ rooted s hs with h | h
        · rcases List.mem_cons.mp h with h | h
          · exact Or.inr (List.mem_cons.mpr (Or.inl h))
          · exact Or.inl h
        · exact Or.inr (List.mem_cons_of_mem a h)

theorem cleanSegs_good (segs : List Str) : ∀ (acc : List Str),
    (∀ a ∈ acc, a ≠ [] ∧ a ≠ strOf "." ∧ a ≠ strOf "..") →
    ∀ s ∈ cleanSegs acc segs true,
      s ≠ [] ∧ s ≠ strOf "." ∧ s ≠ strOf ".." := by
  induction segs with
  | nil =>
    intro acc hacc s hs
    rw [cleanSegs_nil] at hs
    exact hacc s (List.mem_reverse.mp hs)
  | cons a rest ih =>
    intro acc hacc s hs
    rw [cleanSegs_cons] at hs
    split at hs
    · exact ih acc hacc s hs
    · split at hs
      · split at hs
        · split at hs
          · exact ih [] (by simp) s hs
          · rename_i hfalse
            exact absurd rfl hfalse
        · rename_i b acc2
          split at hs
          · rename_i hb
            exact absurd hb (hacc b (List.mem_cons_self b acc2)).2.2
          · exact ih acc2 (fun x hx => hacc x (List.mem_cons_of_mem b hx)) s hs
      · rename_i hg1 hg2
        refine ih (a :: acc) ?_ s hs
        intro x hx
        rcases List.mem_cons.mp hx with hx | hx
        · subst hx
          rw [Bool.or_eq_true] at hg1
          push_neg at hg1
          refine ⟨?_, ?_, hg2⟩
          · intro he
            exact hg1.1 (by rw [he]; rfl)
          · intro he
            exact hg1.2 (by simp [he])
        · exact hacc x hx

theorem cleanSegs_fixed (segs : List Str) : ∀ (acc : List Str) (rooted : Bool),
    (∀ s ∈ segs, s ≠ [] ∧ s ≠ strOf "." ∧ s ≠ strOf "..") →
    cleanSegs acc segs rooted = acc.reverse ++ segs := by
  induction segs with
  | nil =>
    intro acc rooted _
    rw [cleanSegs_nil, List.append_nil]
  | cons a rest ih =>
    intro acc rooted hgood
    have ha := hgood a (List.mem_cons_self a rest)
    rw [cleanSegs_cons, if_neg (by simp [ha.1, ha.2.1]), if_neg ha.2.2,
      ih (a :: acc) rooted (fun s hs => hgood s (List.mem_cons_of_mem a hs))]
    simp

/-- The canonical host of `urlcanon.Normalize`: lowercased, one leading
`www.` label stripped (normalize.go:34-38). -/
def stripHost (u : GoURL) : Str :=
  let host0 := lowerStr u.host
  if (strOf "www.").isPrefixOf host0 && decide (host0.length > 4) then
    host0.drop 4
  else host0

/-- The canonical port of `urlcanon.Normalize`: default ports dropped
(normalize.go:41-46). -/
def portOf (u : GoURL) : Str :=
  if (lowerStr u.scheme = strOf "http" ∧ u.port = strOf "80") ∨
      (lowerStr u.scheme = strOf "https" ∧ u.port = strOf "443") then []
  else u.port

/-- The authority as `url.URL.String()` re-assembles it. -/
def hostOutOf (u : GoURL) : Str :=
  if !(portOf u).isEmpty then joinHostPort (stripHost u) (portOf u)
  else if (stripHost u).contains ':' then '[' :: stripHost u ++ ']' :: []
  else stripHost u

/-- The canonical path of `urlcanon.Normalize` (normalize.go:49-61). -/
def printPath (p : Str) : Str :=
  if !p.isEmpty then
    (let c := pathClean p
     let c2 := if c = strOf "." then [] else c
     let c3 := if c2 = strOf "/" then [] else c2
     trimSuffixSlash c3)
  else p

/-- The canonical raw query of `urlcanon.Normalize` (normalize.go:64-79). -/
def rawQueryOut (u : GoURL) : Str :=
  if !u.rawQuery.isEmpty then
    (let q := trackFilter u.rawQuery
     if q.isEmpty then [] else encodeQuery q)
  else u.rawQuery

/-- The printed query part including its `?` (url.go `String()`:
`ForceQuery || RawQuery != ""`). -/
def queryPartOf (u : GoURL) : Str :=
  if (u.hasQuery && u.rawQuery.isEmpty) || !(rawQueryOut u).isEmpty then
    '?' :: rawQueryOut u
  else []

theorem normalizeParsed_decomp (u : GoURL) :
    normalizeParsed u =
      lowerStr u.scheme ++ ':' :: '/' :: '/' ::
        (hostOutOf u ++ (printPath u.path ++ queryPartOf u)) := by
  simp [normalizeParsed, stripHost, portOf, hostOutOf, printPath, rawQueryOut,
    queryPartOf, List.append_assoc]

theorem splitOnChar_cons_sep (sep : Char) (x : Str) :
    splitOnChar sep (sep :: x) = [] :: splitOnChar sep x := by
  rw [splitOnChar, if_pos rfl]

theorem pathClean_rooted (p : Str) (hne : p ≠ []) (hhead : p.head? = some '/') :
    pathClean p = '/' :: List.intercalate (strOf "/")
      (cleanSegs [] (splitOnChar '/' p) true) := by
  have h1 : p.isEmpty = false := by
    cases p
    · exact absurd rfl hne
    · rfl
  unfold pathClean
  rw [if_neg (by simp [h1])]
  dsimp only
  rw [if_pos hhead]
  have h2 : decide (p.head? = some '/') = true := decide_eq_true hhead
  rw [h2]

theorem printPath_props (p : Str) (hhead : p = [] ∨ p.head? = some '/') :
    printPath (printPath p) = printPath p ∧
    (printPath p = [] ∨ (printPath p).head? = some '/') ∧
    (∀ c ∈ printPath p, c ∈ p ∨ c = '/') := by
  rcases hhead with hnil | hhead
  · subst hnil
    exact ⟨rfl, Or.inl rfl, by simp [printPath]⟩
  · have hne : p ≠ [] := by
      intro he
      rw [he] at hhead
      simp at hhead
    have hsep : strOf "/" = '/' :: [] := rfl
    set out := cleanSegs [] (splitOnChar '/' p) true with hout_def
    have hgood : ∀ s ∈ out, s ≠ [] ∧ s ≠ strOf "." ∧ s ≠ strOf ".." :=
      cleanSegs_good _ [] (by simp)
    have hnosep : ∀ s ∈ out, '/' ∉ s := by
      intro s hs hm
      rcases cleanSegs_mem _ [] true s hs with h | h
      · simp at h
      · exact mem_splitOnChar_no_sep '/' p s h hm
    have hsub : ∀ s ∈ out, ∀ c ∈ s, c ∈ p := by
      intro s hs c hcm
      rcases cleanSegs_mem _ [] true s hs with h | h
      · simp at h
      · exact splitOnChar_mem_subset '/' p s h c hcm
    have hc : pathClean p = '/' :: List.intercalate (strOf "/") out :=
      pathClean_rooted p hne hhead
    have hpisempty : p.isEmpty = false := by
      cases p
      · exact absurd rfl hne
      · rfl
    cases hout : out with
    | nil =>
      have hc1 : pathClean p = '/' :: [] := by
        rw [hc, hout]
        rfl
      have hpp : printPath p = [] := by
        unfold printPath
        rw [if_pos (by simp [hpisempty])]
        dsimp only
        rw [hc1]
        decide
      rw [hpp]
      exact ⟨rfl, Or.inl rfl, by simp⟩
    | cons w ws =>
      have hout_ne : out ≠ [] := by rw [hout]; simp
      have hw : w ≠ [] := (hgood w (by rw [hout]; exact List.mem_cons_self w ws)).1
      have hinter_ne : List.intercalate (strOf "/") out ≠ [] := by
        rw [hout]
        cases ws with
        | nil => rw [intercalate_single]; exact hw
        | cons b bs =>
          rw [intercalate_cons2]
          simp [hw]
      have hlast : ∃ d, (List.intercalate (strOf "/") out).getLast? = some d ∧
          d ≠ '/' := by
        have hsplit := List.dropLast_append_getLast hout_ne
        have hlseg := List.getLast_mem hout_ne
        have hlne : out.getLast hout_ne ≠ [] := (hgood _ hlseg).1
        have hgl : (List.intercalate (strOf "/") out).getLast? =
            (out.getLast hout_ne).getLast? := by
          conv_lhs => rw [← hsplit]
          exact intercalate_getLast _ _ _ hlne
        obtain ⟨d, hd⟩ : ∃ d, (out.getLast hout_ne).getLast? = some d := by
          cases hlg : (out.getLast hout_ne).getLast? with
          | none => rw [List.getLast?_eq_none_iff] at hlg; exact absurd hlg hlne
          | some d => exact ⟨d, rfl⟩
        refine ⟨d, by rw [hgl, hd], ?_⟩
        intro he
        exact hnosep _ hlseg (he ▸ List.mem_of_mem_getLast? hd)
      obtain ⟨d, hdl, hdne⟩ := hlast
      have hcne_dot : ('/' :: List.intercalate (strOf "/") out) ≠ strOf "." := by
        intro he
        have : '/' = '.' := (List.cons.injEq _ _ _ _ ▸ he : _ ∧ _).1
        simp at this
      have hcne_slash : ('/' :: List.intercalate (strOf "/") out) ≠ strOf "/" := by
        intro he
        have h2 : List.intercalate (strOf "/") out = [] :=
          (List.cons.injEq _ _ _ _ ▸ he : _ ∧ _).2
        exact hinter_ne h2
      have htrim : trimSuffixSlash ('/' :: List.intercalate (strOf "/") out) =
          '/' :: List.intercalate (strOf "/") out := by
        unfold trimSuffixSlash
        rw [if_neg]
        intro he
        have hgl2 : ('/' :: List.intercalate (strOf "/") out).getLast? =
            (List.intercalate (strOf "/") out).getLast? := by
          have : '/' :: List.intercalate (strOf "/") out =
              ['/'] ++ List.intercalate (strOf "/") out := rfl
          rw [this, List.getLast?_append_of_ne_nil _ hinter_ne]
        rw [hgl2, hdl] at he
        exact hdne (Option.some.injEq _ _ ▸ he)
      have hpp : printPath p = '/' :: List.intercalate (strOf "/") out := by
        unfold printPath
        rw [if_pos (by simp [hpisempty])]
        dsimp only
        rw [hc, if_neg hcne_dot, if_neg hcne_slash, htrim]
      have hself : printPath ('/' :: List.intercalate (strOf "/") out) =
          '/' :: List.intercalate (strOf "/") out := by
        have hsplit2 : splitOnChar '/' ('/' :: List.intercalate (strOf "/") out) =
            [] :: out := by
          rw [splitOnChar_cons_sep]
          rw [hsep, splitOnChar_intercalate '/' out hout_ne
            (fun s hs => hnosep s hs)]
        have hclean2 : cleanSegs [] ([] :: out) true = out := by
          rw [cleanSegs_cons, if_pos (by simp),
            cleanSegs_fixed out [] true hgood]
          rfl
        have hc2 : pathClean ('/' :: List.intercalate (strOf "/") out) =
            '/' :: List.intercalate (strOf "/") out := by
          rw [pathClean_rooted ('/' :: List.intercalate (strOf "/") out)
            (by simp) (by rfl), hsplit2, hclean2]
        unfold printPath
        rw [if_pos (by simp)]
        dsimp only
        rw [hc2, if_neg hcne_dot, if_neg hcne_slash, htrim]
      refine ⟨?_, ?_, ?_⟩
      · rw [hpp, hself]
      · rw [hpp]
        exact Or.inr rfl
      · rw [hpp]
        intro c hcm
        rcases List.mem_cons.mp hcm with hcm | hcm
        · exact Or.inr hcm
        · rw [hsep] at hcm
          rcases mem_intercalate_decomp '/' out c hcm with hcm | ⟨w2, hw2, hcw2⟩
          · exact Or.inr hcm
          · exact Or.inl (hsub w2 hw2 c hcw2)

theorem hexDigit_toNat (n : Nat) (h : n < 16) :
    (hexDigit n).toNat = if n < 10 then 48 + n else 55 + n := by
  unfold hexDigit
  split_ifs with h1
  · exact toNatOfNatValid _ (Or.inl (by omega))
  · exact toNatOfNatValid _ (Or.inl (by omega))

theorem escapeChar_mem (c d : Char) (h : d ∈ escapeChar c) :
    (d = c ∧ isUnreservedQ c = true) ∨ d = '+' ∨ d = '%' ∨
      ∃ n, n < 16 ∧ d = hexDigit n := by
  unfold escapeChar at h
  split_ifs at h with h1 h2
  · exact Or.inl ⟨List.mem_singleton.mp h, h1⟩
  · exact Or.inr (Or.inl (List.mem_singleton.mp h))
  · rcases List.mem_cons.mp h with h | h
    · exact Or.inr (Or.inr (Or.inl h))
    · rcases List.mem_cons.mp h with h | h
      · exact Or.inr (Or.inr (Or.inr ⟨_, by omega, h⟩))
      · rcases List.mem_cons.mp h with h | h
        · exact Or.inr (Or.inr (Or.inr ⟨_, by omega, h⟩))
        · simp at h

theorem isUnreservedQ_toNat (c : Char) :
    isUnreservedQ c = true ↔
      (65 ≤ c.toNat ∧ c.toNat ≤ 90) ∨ (97 ≤ c.toNat ∧ c.toNat ≤ 122) ∨
      (48 ≤ c.toNat ∧ c.toNat ≤ 57) ∨ c.toNat = 45 ∨ c.toNat = 95 ∨
      c.toNat = 46 ∨ c.toNat = 126 := by
  have h45 : ('-' : Char).toNat = 45 := rfl
  have h95 : ('_' : Char).toNat = 95 := rfl
  have h46 : ('.' : Char).toNat = 46 := rfl
  have h126 : ('~' : Char).toNat = 126 := rfl
  simp only [isUnreservedQ, Char.isAlpha, isUpper_toNat, isLower_toNat,
    isDigit_toNat, Bool.or_eq_true, Bool.and_eq_true, decide_eq_true_eq,
    charEq_iff_toNat, h45, h95, h46, h126]
  omega

theorem escapeChar_char_toNat (c d : Char) (h : d ∈ escapeChar c) :
    isUnreservedQ d = true ∨ d.toNat = 43 ∨ d.toNat = 37 ∨
      (48 ≤ d.toNat ∧ d.toNat ≤ 57) ∨ (65 ≤ d.toNat ∧ d.toNat ≤ 70) := by
  have h43 : ('+' : Char).toNat = 43 := rfl
  have h37 : ('%' : Char).toNat = 37 := rfl
  rcases escapeChar_mem c d h with ⟨he, hu⟩ | he | he | ⟨n, hn, he⟩
  · exact Or.inl (he ▸ hu)
  · exact Or.inr (Or.inl (by rw [he]; exact h43))
  · exact Or.inr (Or.inr (Or.inl (by rw [he]; exact h37)))
  · rw [he, hexDigit_toNat n hn]
    split_ifs with h10
    · exact Or.inr (Or.inr (Or.inr (Or.inl ⟨by omega, by omega⟩)))
    · exact Or.inr (Or.inr (Or.inr (Or.inr ⟨by omega, by omega⟩)))

theorem escapeChar_no_sym (c d : Char) (h : d ∈ escapeChar c)
    (hd : ¬ ((65 ≤ d.toNat ∧ d.toNat ≤ 90) ∨ (97 ≤ d.toNat ∧ d.toNat ≤ 122) ∨
      (48 ≤ d.toNat ∧ d.toNat ≤ 57) ∨ d.toNat = 45 ∨ d.toNat = 95 ∨
      d.toNat = 46 ∨ d.toNat = 126 ∨ d.toNat = 43 ∨ d.toNat = 37)) : False := by
  rcases escapeChar_char_toNat c d h with hu | hu | hu | hu | hu
  · rcases (isUnreservedQ_toNat d).mp hu with h2 | h2 | h2 | h2 | h2 | h2 | h2
      <;> exact hd (by omega)
  all_goals exact hd (by omega)

theorem queryEscape_mem (s : Str) (d : Char) (h : d ∈ queryEscape s) :
    ∃ c ∈ s, d ∈ escapeChar c := by
  induction s with
  | nil => simp [queryEscape] at h
  | cons c cs ih =>
    rcases List.mem_append.mp h with h | h
    · exact ⟨c, List.mem_cons_self c cs, h⟩
    · obtain ⟨c2, hc2, hd2⟩ := ih h
      exact ⟨c2, List.mem_cons_of_mem c hc2, hd2⟩

theorem queryEscape_no_sym (s : Str) (d : Char)
    (hd : ¬ ((65 ≤ d.toNat ∧ d.toNat ≤ 90) ∨ (97 ≤ d.toNat ∧ d.toNat ≤ 122) ∨
      (48 ≤ d.toNat ∧ d.toNat ≤ 57) ∨ d.toNat = 45 ∨ d.toNat = 95 ∨
      d.toNat = 46 ∨ d.toNat = 126 ∨ d.toNat = 43 ∨ d.toNat = 37)) :
    d ∉ queryEscape s := by
  intro h
  obtain ⟨c, -, hdc⟩ := queryEscape_mem s d h
  exact escapeChar_no_sym c d hdc hd

theorem eq_ne_queryEscape (s : Str) : '=' ∉ queryEscape s :=
  queryEscape_no_sym s '=' (by decide)

theorem amp_ne_queryEscape (s : Str) : '&' ∉ queryEscape s :=
  queryEscape_no_sym s '&' (by decide)

theorem semi_ne_queryEscape (s : Str) : ';' ∉ queryEscape s :=
  queryEscape_no_sym s ';' (by decide)

theorem hash_ne_queryEscape (s : Str) : '#' ∉ queryEscape s :=
  queryEscape_no_sym s '#' (by decide)

theorem unplus_esc (s : Str) (h : '%' ∉ queryEscape s) :
    unplus (queryEscape s) = s := by
  induction s with
  | nil => rfl
  | cons c cs ih =>
    have hsplit : queryEscape (c :: cs) = escapeChar c ++ queryEscape cs := rfl
    rw [hsplit] at h ⊢
    have hc : '%' ∉ escapeChar c := fun hm => h (List.mem_append.mpr (Or.inl hm))
    have hcs : '%' ∉ queryEscape cs := fun hm => h (List.mem_append.mpr (Or.inr hm))
    unfold escapeChar at hc ⊢
    split_ifs at hc ⊢ with h1 h2
    · have hne : ¬ c = '+' := by
        intro he
        rw [he] at h1
        exact absurd h1 (by decide)
      simp only [List.singleton_append, unplus, List.map_cons, if_neg hne]
      rw [show List.map (fun c => if c = '+' then ' ' else c) (queryEscape cs) =
        unplus (queryEscape cs) from rfl, ih hcs]
    · simp only [List.singleton_append, unplus, List.map_cons, reduceIte]
      rw [show List.map (fun c => if c = '+' then ' ' else c) (queryEscape cs) =
        unplus (queryEscape cs) from rfl, ih hcs, h2]
    · exact absurd (List.mem_cons_self '%' _) hc

theorem lexLt_asymm (a b : Str) (h : lexLt a b = true) : lexLt b a = false := by
  induction a generalizing b with
  | nil =>
    cases b with
    | nil => simp [lexLt] at h
    | cons d ds => rfl
  | cons c cs ih =>
    cases b with
    | nil => simp [lexLt] at h
    | cons d ds =>
      rw [lexLt] at h ⊢
      by_cases h1 : c < d
      · rw [if_neg (lt_asymm h1), if_pos h1]
      · rw [if_neg h1] at h
        by_cases h2 : d < c
        · rw [if_pos h2] at h
          exact absurd h (by simp)
        · rw [if_neg h2] at h
          rw [if_neg h2, if_neg h1]
          exact ih ds h

theorem insertPair_ne_nil (x : Str × Str) (l : List (Str × Str)) :
    insertPair x l ≠ [] := by
  cases l with
  | nil => simp [insertPair]
  | cons y ys =>
    rw [insertPair]
    split_ifs <;> simp

theorem sortPairs_ne_nil (l : List (Str × Str)) (h : l ≠ []) :
    sortPairs l ≠ [] := by
  cases l with
  | nil => exact absurd rfl h
  | cons x xs => exact insertPair_ne_nil x (sortPairs xs)

theorem mem_insertPair (x y : Str × Str) (l : List (Str × Str))
    (h : y ∈ insertPair x l) : y = x ∨ y ∈ l := by
  induction l with
  | nil => simp [insertPair] at h; exact Or.inl h
  | cons z zs ih =>
    rw [insertPair] at h
    split_ifs at h
    · rcases List.mem_cons.mp h with h | h
      · exact Or.inr (h ▸ List.mem_cons_self z zs)
      · rcases ih h with h | h
        · exact Or.inl h
        · exact Or.inr (List.mem_cons_of_mem z h)
    · rcases List.mem_cons.mp h with h | h
      · exact Or.inl h
      · exact Or.inr h

theorem mem_sortPairs (l : List (Str × Str)) (y : Str × Str)
    (h : y ∈ sortPairs l) : y ∈ l := by
  induction l with
  | nil => simp [sortPairs] at h
  | cons x xs ih =>
    rw [sortPairs] at h
    rcases mem_insertPair x y (sortPairs xs) h with h | h
    · exact h ▸ List.mem_cons_self x xs
    · exact List.mem_cons_of_mem x (ih h)

theorem insertPair_sorted (x : Str × Str) (l : List (Str × Str))
    (h : List.Chain' (fun a b : Str × Str => lexLt b.1 a.1 = false) l) :
    List.Chain' (fun a b : Str × Str => lexLt b.1 a.1 = false) (insertPair x l) := by
  induction l with
  | nil => simp [insertPair]
  | cons y ys ih =>
    rw [insertPair]
    split_ifs with h1
    · rw [List.chain'_cons']
      constructor
      · intro z hz
        cases ys with
        | nil =>
          simp only [insertPair, List.head?_cons, Option.mem_def,
            Option.some.injEq] at hz
          subst hz
          exact lexLt_asymm _ _ h1
        | cons w ws =>
          rw [insertPair] at hz
          split_ifs at hz with h2
          · simp only [List.head?_cons, Option.mem_def, Option.some.injEq] at hz
            subst hz
            exact (List.chain'_cons.mp h).1
          · simp only [List.head?_cons, Option.mem_def, Option.some.injEq] at hz
            subst hz
            exact lexLt_asymm _ _ h1
      · exact ih (List.chain'_cons'.mp h).2
    · rw [List.chain'_cons]
      exact ⟨by simpa using h1, h⟩

theorem sortPairs_sorted (l : List (Str × Str)) :
    List.Chain' (fun a b : Str × Str => lexLt b.1 a.1 = false) (sortPairs l) := by
  induction l with
  | nil => simp [sortPairs]
  | cons x xs ih => exact insertPair_sorted x (sortPairs xs) ih

theorem sortPairs_of_sorted (l : List (Str × Str))
    (h : List.Chain' (fun a b : Str × Str => lexLt b.1 a.1 = false) l) :
    sortPairs l = l := by
  induction l with
  | nil => rfl
  | cons x xs ih =>
    rw [sortPairs, ih (List.chain'_cons'.mp h).2]
    cases xs with
    | nil => rfl
    | cons y ys =>
      rw [insertPair, if_neg]
      rw [Bool.not_eq_true]
      exact (List.chain'_cons.mp h).1

theorem sortPairs_idem (l : List (Str × Str)) :
    sortPairs (sortPairs l) = sortPairs l :=
  sortPairs_of_sorted (sortPairs l) (sortPairs_sorted l)

theorem mem_intercalate_of_mem (sep : Char) (ws : List Str) (w : Str) (c : Char)
    (hw : w ∈ ws) (hc : c ∈ w) : c ∈ List.intercalate (sep :: []) ws := by
  induction ws with
  | nil => simp at hw
  | cons a l ih =>
    cases l with
    | nil =>
      rw [intercalate_single]
      rw [List.mem_singleton.mp hw] at hc
      exact hc
    | cons b bs =>
      rw [intercalate_cons2]
      rcases List.mem_cons.mp hw with hw | hw
      · exact List.mem_append.mpr (Or.inl (List.mem_append.mpr (Or.inl (hw ▸ hc))))
      · exact List.mem_append.mpr (Or.inr (ih hw))

theorem filterMap_all_some {α β : Type} (f : α → Option β) (g : α → β)
    (l : List α) (h : ∀ x ∈ l, f x = some (g x)) : l.filterMap f = l.map g := by
  induction l with
  | nil => rfl
  | cons x xs ih =>
    rw [List.filterMap_cons, h x (List.mem_cons_self x xs), List.map_cons,
      ih (fun y hy => h y (List.mem_cons_of_mem x hy))]

theorem encodePair_ne_nil (kv : Str × Str) : encodePair kv ≠ [] := by
  unfold encodePair
  simp

theorem mem_encodePair (kv : Str × Str) (c : Char) (hc : c ∈ encodePair kv) :
    c ∈ queryEscape kv.1 ∨ c = '=' ∨ c ∈ queryEscape kv.2 := by
  unfold encodePair at hc
  rcases List.mem_append.mp hc with hc | hc
  · exact Or.inl hc
  · rcases List.mem_cons.mp hc with hc | hc
    · exact Or.inr (Or.inl hc)
    · exact Or.inr (Or.inr hc)

theorem encodePair_no_amp (kv : Str × Str) : '&' ∉ encodePair kv := by
  intro h
  rcases mem_encodePair kv '&' h with h | h | h
  · exact amp_ne_queryEscape _ h
  · simp at h
  · exact amp_ne_queryEscape _ h

theorem encodePair_no_semi (kv : Str × Str) : ';' ∉ encodePair kv := by
  intro h
  rcases mem_encodePair kv ';' h with h | h | h
  · exact semi_ne_queryEscape _ h
  · simp at h
  · exact semi_ne_queryEscape _ h

theorem parseQueryModel_encodeList (L : List (Str × Str))
    (hpct : '%' ∉ List.intercalate (strOf "&") (L.map encodePair)) :
    parseQueryModel (List.intercalate (strOf "&") (L.map encodePair)) = L := by
  cases L with
  | nil => rfl
  | cons kv0 rest =>
    have hsep : strOf "&" = '&' :: [] := rfl
    have hne : ((kv0 :: rest).map encodePair) ≠ [] := by simp
    have hnosep : ∀ w ∈ (kv0 :: rest).map encodePair, '&' ∉ w := by
      intro w hw
      obtain ⟨kv2, -, hkv2⟩ := List.mem_map.mp hw
      rw [← hkv2]
      exact encodePair_no_amp kv2
    unfold parseQueryModel
    rw [hsep, splitOnChar_intercalate '&' _ hne hnosep, List.filterMap_map]
    have hall : ∀ kv ∈ kv0 :: rest,
        ((fun part : Str =>
          if part.isEmpty || part.contains ';' then none
          else
            let k := part.takeWhile (fun c => !(c = '='))
            let v :=
              match part.drop k.length with
              | '=' :: rest => rest
              | _ => []
            some (unplus k, unplus v)) ∘ encodePair) kv = some kv := by
      intro kv hkvm
      have hpctkv : '%' ∉ encodePair kv := by
        intro hm
        exact hpct (hsep ▸ mem_intercalate_of_mem '&' _ _ '%'
          (List.mem_map_of_mem encodePair hkvm) hm)
      have hpctk : '%' ∉ queryEscape kv.1 := by
        intro hm
        exact hpctkv (List.mem_append.mpr (Or.inl hm))
      have hpctv : '%' ∉ queryEscape kv.2 := by
        intro hm
        exact hpctkv (List.mem_append.mpr (Or.inr (List.mem_cons_of_mem '=' hm)))
      have hk : (encodePair kv).takeWhile (fun c => !(c = '=')) =
          queryEscape kv.1 := by
        unfold encodePair
        rw [takeWhile_app_all _ _ _ (fun c hc => by
          have hne2 : c ≠ '=' := fun he => eq_ne_queryEscape kv.1 (he ▸ hc)
          simp [hne2])]
        rw [List.takeWhile_cons]
        simp
      have hdrop : (encodePair kv).drop
          ((encodePair kv).takeWhile (fun c => !(c = '='))).length =
          '=' :: queryEscape kv.2 := by
        rw [hk]
        unfold encodePair
        exact List.drop_left _ _
      simp only [Function.comp_apply]
      rw [if_neg]
      · rw [hdrop]
        have hmatch : (match '=' :: queryEscape kv.2 with
            | '=' :: rest => rest
            | _ => ([] : Str)) = queryEscape kv.2 := rfl
        rw [hk, hmatch, unplus_esc _ hpctk, unplus_esc _ hpctv]
      · rw [Bool.or_eq_true]
        push_neg
        constructor
        · simp [encodePair]
        · intro hcon
          exact encodePair_no_semi kv (List.elem_iff.mp hcon)
    rw [filterMap_all_some _ (fun kv => kv) _ hall]
    simp

theorem parseQueryModel_encode (q : List (Str × Str))
    (hpct : '%' ∉ encodeQuery q) :
    parseQueryModel (encodeQuery q) = sortPairs q :=
  parseQueryModel_encodeList (sortPairs q) hpct

theorem goIsSpace_toNat (c : Char) :
    goIsSpace c = true ↔
      c.toNat = 32 ∨ c.toNat = 9 ∨ c.toNat = 10 ∨ c.toNat = 11 ∨
      c.toNat = 12 ∨ c.toNat = 13 ∨ c.toNat = 133 ∨ c.toNat = 160 := by
  have h32 : (' ' : Char).toNat = 32 := rfl
  have h9 : ('\t' : Char).toNat = 9 := rfl
  have h10 : ('\n' : Char).toNat = 10 := rfl
  have h11 : ('\x0b' : Char).toNat = 11 := rfl
  have h12 : ('\x0c' : Char).toNat = 12 := rfl
  have h13 : ('\r' : Char).toNat = 13 := rfl
  have h133 : (Char.ofNat 133).toNat = 133 := rfl
  have h160 : (Char.ofNat 160).toNat = 160 := rfl
  simp only [goIsSpace, Bool.or_eq_true, decide_eq_true_eq, charEq_iff_toNat,
    h32, h9, h10, h11, h12, h13, h133, h160]
  omega

theorem mem_encodeQuery_ranges (q : List (Str × Str)) (c : Char)
    (hc : c ∈ encodeQuery q) :
    (65 ≤ c.toNat ∧ c.toNat ≤ 90) ∨ (97 ≤ c.toNat ∧ c.toNat ≤ 122) ∨
    (48 ≤ c.toNat ∧ c.toNat ≤ 57) ∨ c.toNat = 45 ∨ c.toNat = 95 ∨
    c.toNat = 46 ∨ c.toNat = 126 ∨ c.toNat = 43 ∨ c.toNat = 37 ∨
    c.toNat = 38 ∨ c.toNat = 61 := by
  have hsep : strOf "&" = '&' :: [] := rfl
  unfold encodeQuery at hc
  rw [hsep] at hc
  have h38 : ('&' : Char).toNat = 38 := rfl
  have h61 : ('=' : Char).toNat = 61 := rfl
  rcases mem_intercalate_decomp '&' _ c hc with hc | ⟨w, hw, hcw⟩
  · exact Or.inr (Or.inr (Or.inr (Or.inr (Or.inr (Or.inr (Or.inr (Or.inr
      (Or.inr (Or.inl (hc ▸ h38))))))))))
  · obtain ⟨kv, -, hkv⟩ := List.mem_map.mp hw
    rw [← hkv] at hcw
    rcases mem_encodePair kv c hcw with hcw | hcw | hcw
    · obtain ⟨d, -, hd⟩ := queryEscape_mem _ c hcw
      rcases escapeChar_char_toNat d c hd with hu | hu | hu | hu | hu
      · rcases (isUnreservedQ_toNat c).mp hu with h | h | h | h | h | h | h
        · exact Or.inl h
        · exact Or.inr (Or.inl h)
        · exact Or.inr (Or.inr (Or.inl h))
        · omega
        · omega
        · omega
        · omega
      all_goals omega
    · exact Or.inr (Or.inr (Or.inr (Or.inr (Or.inr (Or.inr (Or.inr (Or.inr
        (Or.inr (Or.inr (hcw ▸ h61))))))))))
    · obtain ⟨d, -, hd⟩ := queryEscape_mem _ c hcw
      rcases escapeChar_char_toNat d c hd with hu | hu | hu | hu | hu
      · rcases (isUnreservedQ_toNat c).mp hu with h | h | h | h | h | h | h
        · exact Or.inl h
        · exact Or.inr (Or.inl h)
        · exact Or.inr (Or.inr (Or.inl h))
        · omega
        · omega
        · omega
        · omega
      all_goals omega

theorem encodeQuery_no_space (q : List (Str × Str)) (c : Char)
    (hc : c ∈ encodeQuery q) : goIsSpace c = false := by
  have hr := mem_encodeQuery_ranges q c hc
  cases hb : goIsSpace c
  · rfl
  · have := (goIsSpace_toNat c).mp hb
    omega

theorem encodeQuery_no_hash (q : List (Str × Str)) : '#' ∉ encodeQuery q := by
  intro hc
  have hr := mem_encodeQuery_ranges q '#' hc
  have h35 : ('#' : Char).toNat = 35 := rfl
  omega


theorem digit_ne_colon (c : Char) (h : c.isDigit = true) : ¬ c = ':' := by
  intro he
  rw [isDigit_toNat] at h
  have h58 : (':' : Char).toNat = 58 := rfl
  rw [he, h58] at h
  simp at h

theorem splitHostPort_join_plain (host port : Str) (hlb : '[' ∉ host)
    (hcol : host.contains ':' = false) (hd : port.all Char.isDigit = true)
    (hp : port ≠ []) :
    splitHostPort (host ++ ':' :: port) = some (host, port) := by
  have hall : ∀ c ∈ port.reverse, (!(c = ':')) = true := by
    intro c hcm
    have hdg := List.all_eq_true.mp hd c (List.mem_reverse.mp hcm)
    simp [digit_ne_colon c hdg]
  have hptW : ((host ++ ':' :: port).reverse.takeWhile
      (fun c => !(c = ':'))).reverse = port := by
    have hrev : (host ++ ':' :: port).reverse =
        port.reverse ++ ':' :: host.reverse := by simp
    rw [hrev, takeWhile_app_all _ _ _ hall, List.takeWhile_cons]
    simp
  have hhW : (host ++ ':' :: port).take
      ((host ++ ':' :: port).length - port.length - 1) = host := by
    have hlen : (host ++ ':' :: port).length = host.length + port.length + 1 := by
      simp
      omega
    rw [hlen]
    have harith : host.length + port.length + 1 - port.length - 1 =
        host.length := by omega
    rw [harith]
    exact List.take_left host (':' :: port)
  unfold splitHostPort
  split
  · rename_i rest heq
    exfalso
    cases host with
    | nil => simp at heq
    | cons hc h2 =>
      rw [List.cons_append] at heq
      have : hc = '[' := (List.cons.injEq _ _ _ _ ▸ heq : _ ∧ _).1
      exact hlb (this ▸ List.mem_cons_self hc h2)
  · rw [if_pos (List.elem_iff.mpr
      (List.mem_append.mpr (Or.inr (List.mem_cons_self ':' port))))]
    dsimp only
    rw [hptW, hhW, if_neg (by rw [hcol]; simp), if_pos hd]

theorem takeWhile_ne_rbrack (host : Str) (hrb : ']' ∉ host) (X : Str) :
    (host ++ X).takeWhile (fun c => !(c = ']')) =
      host ++ X.takeWhile (fun c => !(c = ']')) :=
  takeWhile_app_all _ _ _ (fun c hc => by
    have : ¬ c = ']' := fun he => hrb (he ▸ hc)
    simp [this])

theorem splitHostPort_join_bracket (host port : Str) (hrb : ']' ∉ host)
    (hd : port.all Char.isDigit = true) :
    splitHostPort ('[' :: host ++ ']' :: ':' :: port) = some (host, port) := by
  have h1 : '[' :: host ++ ']' :: ':' :: port =
      '[' :: (host ++ ']' :: ':' :: port) := by simp
  rw [h1]
  unfold splitHostPort
  have htW : (host ++ ']' :: ':' :: port).takeWhile (fun c => !(c = ']')) =
      host := by
    rw [takeWhile_ne_rbrack host hrb, List.takeWhile_cons]
    simp
  have hdrop : (host ++ ']' :: ':' :: port).drop host.length =
      ']' :: ':' :: port := List.drop_left _ _
  split
  · rename_i rest heq
    have hr : rest = host ++ ']' :: ':' :: port :=
      ((List.cons.injEq _ _ _ _ ▸ heq : _ ∧ _).2).symm
    subst hr
    rw [htW]
    dsimp only
    rw [hdrop]
    show (if port.all Char.isDigit = true then some (host, port) else none) =
      some (host, port)
    rw [if_pos hd]
  · rename_i hno
    exact absurd rfl (hno _)

theorem splitHostPort_bracket_noport (host : Str) (hrb : ']' ∉ host) :
    splitHostPort ('[' :: host ++ ']' :: []) = some (host, []) := by
  have h1 : '[' :: host ++ ']' :: [] = '[' :: (host ++ ']' :: []) := by simp
  rw [h1]
  unfold splitHostPort
  have htW : (host ++ ']' :: []).takeWhile (fun c => !(c = ']')) = host := by
    rw [takeWhile_ne_rbrack host hrb, List.takeWhile_cons]
    simp
  have hdrop : (host ++ ']' :: []).drop host.length = ']' :: [] :=
    List.drop_left _ _
  split
  · rename_i rest heq
    have hr : rest = host ++ ']' :: [] :=
      ((List.cons.injEq _ _ _ _ ▸ heq : _ ∧ _).2).symm
    subst hr
    rw [htW]
    dsimp only
    rw [hdrop]
    rfl
  · rename_i hno
    exact absurd rfl (hno _)

theorem splitHostPort_plain_noport (host : Str) (hlb : '[' ∉ host)
    (hcol : host.contains ':' = false) :
    splitHostPort host = some (host, []) := by
  unfold splitHostPort
  split
  · rename_i rest
    exact absurd (List.mem_cons_self '[' rest) hlb
  · rw [if_neg (by rw [hcol]; simp)]

theorem lowerChar_eq_lbrack (c : Char) : (toLowerChar c = '[') ↔ c = '[' :=
  toLowerChar_eq_sym c '[' (by decide) (by decide)

theorem guard_facts (t : Str)
    (h : t.any (fun c => goIsSpace c || c = '%') = false) :
    ∀ c ∈ t, goIsSpace c = false ∧ c ≠ '%' := by
  intro c hc
  have h2 : ¬ (goIsSpace c || decide (c = '%')) = true := by
    intro hcon
    rw [List.any_eq_false] at h
    exact h c hc hcon
  rw [Bool.or_eq_true] at h2
  push_neg at h2
  exact ⟨by simpa using h2.1, by simpa using h2.2⟩

theorem mem_stripHost (u : GoURL) (c : Char) (hc : c ∈ stripHost u) :
    c ∈ lowerStr u.host := by
  unfold stripHost at hc
  dsimp only at hc
  split_ifs at hc
  · exact List.drop_subset 4 _ hc
  · exact hc

theorem mem_portOf (u : GoURL) (c : Char) (hc : c ∈ portOf u) : c ∈ u.port := by
  unfold portOf at hc
  split_ifs at hc
  · simp at hc
  · exact hc

theorem mem_hostOutOf (u : GoURL) (c : Char) (hc : c ∈ hostOutOf u) :
    c ∈ stripHost u ∨ c ∈ portOf u ∨ c = '[' ∨ c = ']' ∨ c = ':' := by
  unfold hostOutOf at hc
  split_ifs at hc
  · unfold joinHostPort at hc
    split_ifs at hc
    · rcases List.mem_cons.mp hc with hc | hc
      · exact Or.inr (Or.inr (Or.inl hc))
      · rcases List.mem_append.mp hc with hc | hc
        · exact Or.inl hc
        · rcases List.mem_cons.mp hc with hc | hc
          · exact Or.inr (Or.inr (Or.inr (Or.inl hc)))
          · rcases List.mem_cons.mp hc with hc | hc
            · exact Or.inr (Or.inr (Or.inr (Or.inr hc)))
            · exact Or.inr (Or.inl hc)
    · rcases List.mem_append.mp hc with hc | hc
      · exact Or.inl hc
      · rcases List.mem_cons.mp hc with hc | hc
        · exact Or.inr (Or.inr (Or.inr (Or.inr hc)))
        · exact Or.inr (Or.inl hc)
  · rcases List.mem_cons.mp hc with hc | hc
    · exact Or.inr (Or.inr (Or.inl hc))
    · rcases List.mem_append.mp hc with hc | hc
      · exact Or.inl hc
      · rcases List.mem_cons.mp hc with hc | hc
        · exact Or.inr (Or.inr (Or.inr (Or.inl hc)))
        · simp at hc
  · exact Or.inl hc

theorem mem_rawQueryOut (u : GoURL) (c : Char) (hc : c ∈ rawQueryOut u) :
    c ∈ encodeQuery (trackFilter u.rawQuery) ∨ c ∈ u.rawQuery := by
  unfold rawQueryOut at hc
  split_ifs at hc
  · dsimp only at hc
    split_ifs at hc
    · simp at hc
    · exact Or.inl hc
  · exact Or.inr hc

theorem mem_queryPartOf (u : GoURL) (c : Char) (hc : c ∈ queryPartOf u) :
    c = '?' ∨ c ∈ rawQueryOut u := by
  unfold queryPartOf at hc
  split_ifs at hc
  · rcases List.mem_cons.mp hc with hc | hc
    · exact Or.inl hc
    · exact Or.inr hc
  · simp at hc

theorem parseURL_facts (t : Str) (u : GoURL) (h : parseURL t = some u) :
    (∀ c ∈ u.scheme, schemeChar c = true) ∧
    (∀ c ∈ u.host, ¬ c = '/' ∧ ¬ c = '?' ∧ ¬ c = '#') ∧
    u.port.all Char.isDigit = true ∧
    ('?' ∉ u.path ∧ '#' ∉ u.path) ∧
    (u.path = [] ∨ u.path.head? = some '/') ∧
    (∀ c ∈ u.scheme, c ∈ t) ∧ (∀ c ∈ u.host, c ∈ t) ∧
    (∀ c ∈ u.path, c ∈ t) ∧ (∀ c ∈ u.rawQuery, c ∈ t) := by
  obtain ⟨hsch, -, rest1, rest2, hdrop, hauth, hpath, hquery⟩ := parseURL_inv t u h
  obtain ⟨hane, hat, hsp, hrest2⟩ := hauth
  have hrest1t : ∀ c ∈ rest1, c ∈ t := by
    intro c hc
    have h2 : c ∈ t.drop u.scheme.length := by
      rw [hdrop]
      exact List.mem_cons_of_mem _ (List.mem_cons_of_mem _ (List.mem_cons_of_mem _ hc))
    exact List.drop_subset _ _ h2
  have hauthsub : ∀ c ∈ rest1.takeWhile
      (fun c => !(c = '/' || c = '?' || c = '#')), c ∈ rest1 :=
    fun c hc => (List.takeWhile_sublist _).mem hc
  obtain ⟨hhostsub, hportdig, -⟩ := splitHostPort_facts _ _ _ hsp
  have hrest2sub : ∀ c ∈ rest2, c ∈ rest1 := by
    intro c hc
    rw [hrest2] at hc
    exact List.drop_subset _ _ hc
  refine ⟨?_, ?_, hportdig, ⟨?_, ?_⟩, ?_, ?_, ?_, ?_, ?_⟩
  · intro c hc
    rw [hsch] at hc
    exact List.mem_takeWhile_imp hc
  · intro c hc
    have h2 := List.mem_takeWhile_imp (hhostsub c hc)
    have h3 : (¬ c = '/' ∧ ¬ c = '?') ∧ ¬ c = '#' := by simpa using h2
    exact ⟨h3.1.1, h3.1.2, h3.2⟩
  · intro hm
    rw [hpath] at hm
    have h2 := List.mem_takeWhile_imp hm
    simp at h2
  · intro hm
    rw [hpath] at hm
    have h2 := List.mem_takeWhile_imp hm
    simp at h2
  · rw [hrest2, drop_takeWhile_length] at hpath
    cases hr2 : rest1.dropWhile (fun c => !(c = '/' || c = '?' || c = '#')) with
    | nil =>
      rw [hr2] at hpath
      exact Or.inl hpath
    | cons c r2 =>
      have hcfalse := dropWhile_head_false _ rest1 c r2 hr2
      rw [hr2] at hpath
      simp at hcfalse
      by_cases h1 : c = '/'
      · subst h1
        refine Or.inr ?_
        rw [hpath, List.takeWhile_cons, if_pos (by decide)]
        rfl
      · by_cases h2 : c = '?'
        · subst h2
          refine Or.inl ?_
          rw [hpath, List.takeWhile_cons, if_neg (by decide)]
        · have h3 := hcfalse h1 h2
          subst h3
          refine Or.inl ?_
          rw [hpath, List.takeWhile_cons, if_neg (by decide)]
  · intro c hc
    rw [hsch] at hc
    exact (List.takeWhile_sublist _).mem hc
  · intro c hc
    exact hrest1t c (hauthsub c (hhostsub c hc))
  · intro c hc
    rw [hpath] at hc
    exact hrest1t c (hrest2sub c ((List.takeWhile_sublist _).mem hc))
  · intro c hc
    rcases hquery with ⟨-, -, hq⟩ | ⟨-, -, hq⟩ | ⟨r, hr, -, hq⟩
    · rw [hq] at hc
      simp at hc
    · rw [hq] at hc
      simp at hc
    · rw [hq] at hc
      have h2 : c ∈ r := (List.takeWhile_sublist _).mem hc
      have h3 : c ∈ rest2.drop u.path.length := by
        rw [hr]
        exact List.mem_cons_of_mem _ h2
      exact hrest1t c (hrest2sub c (List.drop_subset _ _ h3))

theorem lowerStr_no_space (s : Str) (h : ∀ c ∈ s, goIsSpace c = false) :
    ∀ c ∈ lowerStr s, goIsSpace c = false := by
  intro c hc
  obtain ⟨d, hd, he⟩ := List.mem_map.mp hc
  rw [← he, goIsSpace_lower]
  exact h d hd

theorem digit_no_space (c : Char) (h : c.isDigit = true) :
    goIsSpace c = false := by
  rw [isDigit_toNat] at h
  simp only [Bool.and_eq_true, decide_eq_true_eq] at h
  cases hb : goIsSpace c
  · rfl
  · have := (goIsSpace_toNat c).mp hb
    omega

theorem normalizeParsed_ne_nil (u : GoURL) : normalizeParsed u ≠ [] := by
  rw [normalizeParsed_decomp]
  simp

theorem normalizeParsed_no_space (t : Str) (u : GoURL)
    (hparse : parseURL t = some u) :
    ∀ c ∈ normalizeParsed u, goIsSpace c = false := by
  have hguard := guard_facts t (parseURL_guard t u hparse)
  obtain ⟨-, -, hportdig, -, -, hschemet, hhostt, hpatht, hqueryt⟩ :=
    parseURL_facts t u hparse
  have htsp : ∀ c ∈ t, goIsSpace c = false := fun c hc => (hguard c hc).1
  intro c hc
  rw [normalizeParsed_decomp] at hc
  rcases List.mem_append.mp hc with hc | hc
  · exact lowerStr_no_space _ (fun d hd => htsp d (hschemet d hd)) c hc
  · rcases List.mem_cons.mp hc with hc | hc
    · subst hc; rfl
    · rcases List.mem_cons.mp hc with hc | hc
      · subst hc; rfl
      · rcases List.mem_cons.mp hc with hc | hc
        · subst hc; rfl
        · rcases List.mem_append.mp hc with hc | hc
          · rcases mem_hostOutOf u c hc with hc | hc | hc | hc | hc
            · exact lowerStr_no_space _ (fun d hd => htsp d (hhostt d hd)) c
                (mem_stripHost u c hc)
            · exact digit_no_space c
                (List.all_eq_true.mp hportdig c (mem_portOf u c hc))
            · subst hc; rfl
            · subst hc; rfl
            · subst hc; rfl
          · rcases List.mem_append.mp hc with hc | hc
            · obtain ⟨-, hhead, hchars⟩ := printPath_props u.path
                ((parseURL_facts t u hparse).2.2.2.2.1)
              rcases hchars c hc with hc | hc
              · exact htsp c (hpatht c hc)
              · subst hc; rfl
            · rcases mem_queryPartOf u c hc with hc | hc
              · subst hc; rfl
              · rcases mem_rawQueryOut u c hc with hc | hc
                · exact encodeQuery_no_space _ c hc
                · exact htsp c (hqueryt c hc)

theorem lowerStr_stripHost (u : GoURL) :
    lowerStr (stripHost u) = stripHost u := by
  unfold stripHost
  dsimp only
  split_ifs
  · rw [lowerStr_drop, lowerStr_idem]
  · exact lowerStr_idem u.host

theorem queryPartOf_shape (u : GoURL) :
    queryPartOf u = [] ∨ queryPartOf u = '?' :: rawQueryOut u := by
  unfold queryPartOf
  split_ifs
  · exact Or.inr rfl
  · exact Or.inl rfl

theorem hostOut_notDelim (t : Str) (u : GoURL) (hparse : parseURL t = some u) :
    ∀ c ∈ hostOutOf u, (!(c = '/' || c = '?' || c = '#')) = true := by
  obtain ⟨-, hhost, hportdig, -⟩ := parseURL_facts t u hparse
  intro c hc
  rcases mem_hostOutOf u c hc with hc | hc | hc | hc | hc
  · have hc2 := mem_stripHost u c hc
    obtain ⟨d, hd, he⟩ := List.mem_map.mp hc2
    have hdh := hhost d hd
    subst he
    have h1 : ¬ toLowerChar d = '/' := fun he2 =>
      hdh.1 ((lowerChar_eq_slash d).mp he2)
    have h2 : ¬ toLowerChar d = '?' := fun he2 =>
      hdh.2.1 ((lowerChar_eq_qmark d).mp he2)
    have h3 : ¬ toLowerChar d = '#' := fun he2 =>
      hdh.2.2 ((lowerChar_eq_hashc d).mp he2)
    simp [h1, h2, h3]
  · have hdg := List.all_eq_true.mp hportdig c (mem_portOf u c hc)
    rw [isDigit_toNat] at hdg
    simp only [Bool.and_eq_true, decide_eq_true_eq] at hdg
    have h47 : ('/' : Char).toNat = 47 := rfl
    have h63 : ('?' : Char).toNat = 63 := rfl
    have h35 : ('#' : Char).toNat = 35 := rfl
    simp only [Bool.not_eq_true', Bool.or_eq_false_iff, decide_eq_false_iff_not]
    refine ⟨⟨fun he => ?_, fun he => ?_⟩, fun he => ?_⟩
    · rw [he, h47] at hdg; omega
    · rw [he, h63] at hdg; omega
    · rw [he, h35] at hdg; omega
  all_goals (subst hc; rfl)

theorem printPath_pathChar (t : Str) (u : GoURL) (hparse : parseURL t = some u) :
    ∀ c ∈ printPath u.path, (!(c = '?' || c = '#')) = true := by
  obtain ⟨-, -, -, ⟨hq, hh⟩, hhead, -⟩ := parseURL_facts t u hparse
  obtain ⟨-, -, hchars⟩ := printPath_props u.path hhead
  intro c hc
  rcases hchars c hc with hc | hc
  · have h1 : ¬ c = '?' := fun he => hq (he ▸ hc)
    have h2 : ¬ c = '#' := fun he => hh (he ▸ hc)
    simp [h1, h2]
  · subst hc; rfl

theorem PQ_takeWhile_nil (u : GoURL)
    (hhead : printPath u.path = [] ∨ (printPath u.path).head? = some '/') :
    (printPath u.path ++ queryPartOf u).takeWhile
      (fun c => !(c = '/' || c = '?' || c = '#')) = [] := by
  cases hpp : printPath u.path with
  | nil =>
    rw [List.nil_append]
    rcases queryPartOf_shape u with hq | hq
    · rw [hq]
      rfl
    · rw [hq, List.takeWhile_cons, if_neg (by decide)]
  | cons c r =>
    rcases hhead with hp | hp
    · rw [hpp] at hp
      simp at hp
    · rw [hpp] at hp
      simp only [List.head?_cons, Option.some.injEq] at hp
      subst hp
      rw [List.cons_append, List.takeWhile_cons, if_neg (by decide)]

theorem Q_takeWhile_nil (u : GoURL) :
    (queryPartOf u).takeWhile (fun c => !(c = '?' || c = '#')) = [] := by
  rcases queryPartOf_shape u with hq | hq
  · rw [hq]
    rfl
  · rw [hq, List.takeWhile_cons, if_neg (by decide)]

theorem normalizeParsed_reparse (t : Str) (u v : GoURL)
    (hparse : parseURL t = some u)
    (hlb : '[' ∉ u.host) (hrb : ']' ∉ u.host)
    (hwww : ((strOf "www.").isPrefixOf (stripHost u) &&
      decide ((stripHost u).length > 4)) = false)
    (hv : parseURL (normalizeParsed u) = some v) :
    normalizeParsed v = normalizeParsed u := by
  obtain ⟨hvsch, -, rest1v, rest2v, hvdrop, hvauth, hvpath, hvquery⟩ :=
    parseURL_inv _ v hv
  obtain ⟨-, -, hvsp, hvrest2⟩ := hvauth
  obtain ⟨hschemeQ, hhostF, hportdig, hpathF, hpathhead, -⟩ :=
    parseURL_facts t u hparse
  have hPhead := (printPath_props u.path hpathhead).2.1
  have hSall : ∀ c ∈ lowerStr u.scheme, schemeChar c = true := by
    intro c hc
    obtain ⟨d, hd, he⟩ := List.mem_map.mp hc
    rw [← he, schemeChar_lower]
    exact hschemeQ d hd
  have hF1 : (normalizeParsed u).takeWhile schemeChar = lowerStr u.scheme := by
    rw [normalizeParsed_decomp, takeWhile_app_all _ _ _ hSall,
      List.takeWhile_cons, if_neg (by decide), List.append_nil]
  have hvS : v.scheme = lowerStr u.scheme := by rw [hvsch, hF1]
  have hdropS : (normalizeParsed u).drop v.scheme.length =
      ':' :: '/' :: '/' ::
        (hostOutOf u ++ (printPath u.path ++ queryPartOf u)) := by
    rw [normalizeParsed_decomp, hvS]
    exact List.drop_left _ _
  have hrest1v : rest1v =
      hostOutOf u ++ (printPath u.path ++ queryPartOf u) := by
    have h2 := hvdrop.symm.trans hdropS
    simpa using h2
  have hHall := hostOut_notDelim t u hparse
  have hauthv : rest1v.takeWhile (fun c => !(c = '/' || c = '?' || c = '#')) =
      hostOutOf u := by
    rw [hrest1v, takeWhile_app_all _ _ _ hHall, PQ_takeWhile_nil u hPhead,
      List.append_nil]
  have hlbS : '[' ∉ stripHost u := fun hm =>
    hlb ((mem_lowerStr_sym u.host '[' lowerChar_eq_lbrack).mp
      (mem_stripHost u '[' hm))
  have hrbS : ']' ∉ stripHost u := fun hm =>
    hrb ((mem_lowerStr_sym u.host ']' lowerChar_eq_rbrack).mp
      (mem_stripHost u ']' hm))
  have hdigP : (portOf u).all Char.isDigit = true := by
    unfold portOf
    split_ifs
    · rfl
    · exact hportdig
  have hsplitH : splitHostPort (hostOutOf u) = some (stripHost u, portOf u) := by
    unfold hostOutOf
    split_ifs with h1 h2
    · unfold joinHostPort
      split_ifs with h3
      · exact splitHostPort_join_bracket _ _ hrbS hdigP
      · refine splitHostPort_join_plain _ _ hlbS (by simpa using h3) hdigP ?_
        intro he
        rw [he] at h1
        simp at h1
    · have hpnil : portOf u = [] := by
        cases hp : portOf u
        · rfl
        · rw [hp] at h1
          simp at h1
      rw [hpnil]
      exact splitHostPort_bracket_noport _ hrbS
    · have hpnil : portOf u = [] := by
        cases hp : portOf u
        · rfl
        · rw [hp] at h1
          simp at h1
      rw [hpnil]
      exact splitHostPort_plain_noport _ hlbS (by simpa using h2)
  have hvhp : v.host = stripHost u ∧ v.port = portOf u := by
    rw [hauthv, hsplitH] at hvsp
    have h2 : (stripHost u, portOf u) = (v.host, v.port) := by
      simpa using hvsp
    exact ⟨((Prod.mk.injEq _ _ _ _ ▸ h2 : _ ∧ _).1).symm,
      ((Prod.mk.injEq _ _ _ _ ▸ h2 : _ ∧ _).2).symm⟩
  have hrest2vEq : rest2v = printPath u.path ++ queryPartOf u := by
    have h2 := hvrest2
    rw [hauthv, hrest1v, List.drop_left] at h2
    exact h2
  have hvpathP : v.path = printPath u.path := by
    rw [hvpath, hrest2vEq,
      takeWhile_app_all _ _ _ (printPath_pathChar t u hparse),
      Q_takeWhile_nil, List.append_nil]
  have hdropQ : rest2v.drop v.path.length = queryPartOf u := by
    rw [hrest2vEq, hvpathP, List.drop_left]
  have hSv : lowerStr v.scheme = lowerStr u.scheme := by
    rw [hvS, lowerStr_idem]
  have hlv : lowerStr v.host = stripHost u := by
    rw [hvhp.1, lowerStr_stripHost]
  have hstripv : stripHost v = stripHost u := by
    have h2 : stripHost v = lowerStr v.host := by
      unfold stripHost
      dsimp only
      rw [hlv, hwww]
      simp
    rw [h2, hlv]
  have hcondv : ((lowerStr v.scheme = strOf "http" ∧ v.port = strOf "80") ∨
      (lowerStr v.scheme = strOf "https" ∧ v.port = strOf "443")) ↔
      ((lowerStr u.scheme = strOf "http" ∧ portOf u = strOf "80") ∨
        (lowerStr u.scheme = strOf "https" ∧ portOf u = strOf "443")) := by
    rw [hSv, hvhp.2]
  have hportv : portOf v = portOf u := by
    by_cases horig : (lowerStr u.scheme = strOf "http" ∧ u.port = strOf "80") ∨
        (lowerStr u.scheme = strOf "https" ∧ u.port = strOf "443")
    · have hpu : portOf u = [] := by
        unfold portOf
        rw [if_pos horig]
      have hcv : ¬ ((lowerStr v.scheme = strOf "http" ∧ v.port = strOf "80") ∨
          (lowerStr v.scheme = strOf "https" ∧ v.port = strOf "443")) := by
        rw [hcondv, hpu]
        rintro (⟨-, habs⟩ | ⟨-, habs⟩) <;> exact absurd habs (by decide)
      have h3 : portOf v = v.port := by
        unfold portOf
        rw [if_neg hcv]
      rw [h3, hvhp.2]
    · have hpu : portOf u = u.port := by
        unfold portOf
        rw [if_neg horig]
      have hcv : ¬ ((lowerStr v.scheme = strOf "http" ∧ v.port = strOf "80") ∨
          (lowerStr v.scheme = strOf "https" ∧ v.port = strOf "443")) := by
        rw [hcondv, hpu]
        exact horig
      have h3 : portOf v = v.port := by
        unfold portOf
        rw [if_neg hcv]
      rw [h3, hvhp.2]
  have hhostOutv : hostOutOf v = hostOutOf u := by
    unfold hostOutOf
    rw [hstripv, hportv]
  have hPv : printPath v.path = printPath u.path := by
    rw [hvpathP, (printPath_props u.path hpathhead).1]
  have hrawv_of_nil : v.rawQuery = [] → rawQueryOut v = [] := by
    intro he
    unfold rawQueryOut
    rw [he]
    rfl
  have hQv : queryPartOf v = queryPartOf u := by
    rcases hvquery with ⟨hq1, hq2, hq3⟩ | ⟨⟨f, hf⟩, hq2, hq3⟩ | ⟨r, hr, hq2, hq3⟩
    · have hQempty : queryPartOf u = [] := by rw [← hdropQ, hq1]
      rw [hQempty]
      unfold queryPartOf
      rw [if_neg]
      rw [hq2, hrawv_of_nil hq3]
      simp
    · rw [hdropQ] at hf
      exfalso
      rcases queryPartOf_shape u with hQ | hQ
      · rw [hQ] at hf
        exact absurd hf (by simp)
      · rw [hQ] at hf
        have : '?' = '#' := (List.cons.injEq _ _ _ _ ▸ hf : _ ∧ _).1
        exact absurd this (by decide)
    · rw [hdropQ] at hr
      have hrEq : r = rawQueryOut u := by
        rcases queryPartOf_shape u with hQ | hQ
        · rw [hQ] at hr
          exact absurd hr (by simp)
        · rw [hQ] at hr
          exact ((List.cons.injEq _ _ _ _ ▸ hr : _ ∧ _).2).symm
      by_cases hrq : rawQueryOut u = []
      · have hrnil : r = [] := hrEq.trans hrq
        have hvraw : v.rawQuery = [] := by
          rw [hq3, hrnil]
          rfl
        rcases queryPartOf_shape u with hQ | hQ
        · rw [hQ] at hr
          exact absurd hr (by simp)
        · rw [hQ, hrq]
          unfold queryPartOf
          rw [if_pos]
          · rw [hrawv_of_nil hvraw]
          · rw [hq2, hvraw]
            simp
      · have hstruct : u.rawQuery ≠ [] ∧ trackFilter u.rawQuery ≠ [] ∧
            rawQueryOut u = encodeQuery (trackFilter u.rawQuery) := by
          unfold rawQueryOut at hrq ⊢
          split_ifs at hrq ⊢ with ha
          · dsimp only at hrq ⊢
            split_ifs at hrq ⊢ with hb
            · exact absurd rfl hrq
            · refine ⟨?_, ?_, rfl⟩
              · intro he
                rw [he] at ha
                simp at ha
              · intro he
                rw [he] at hb
                simp at hb
          · exact absurd (by simpa using ha) hrq
        obtain ⟨hune, hqne, hrqeq⟩ := hstruct
        have hrenc : r = encodeQuery (trackFilter u.rawQuery) :=
          hrEq.trans hrqeq
        have hguardv := guard_facts _ (parseURL_guard _ v hv)
        have hpct : '%' ∉ encodeQuery (trackFilter u.rawQuery) := by
          intro hm
          have hmQ : '%' ∈ queryPartOf u := by
            rcases queryPartOf_shape u with hQ | hQ
            · rw [hQ] at hr
              exact absurd hr (by simp)
            · rw [hQ, hrqeq]
              exact List.mem_cons_of_mem _ hm
          have hmout : '%' ∈ normalizeParsed u := by
            rw [normalizeParsed_decomp]
            refine List.mem_append.mpr (Or.inr ?_)
            refine List.mem_cons_of_mem _ (List.mem_cons_of_mem _
              (List.mem_cons_of_mem _ ?_))
            exact List.mem_append.mpr (Or.inr (List.mem_append.mpr (Or.inr hmQ)))
          exact (hguardv '%' hmout).2 rfl
        have hvraw : v.rawQuery = encodeQuery (trackFilter u.rawQuery) := by
          rw [hq3, hrenc, takeWhile_all_eq]
          intro c hc
          have : ¬ c = '#' := fun he =>
            encodeQuery_no_hash (trackFilter u.rawQuery) (he ▸ hc)
          simp [this]
        have hfilterid : trackFilter (encodeQuery (trackFilter u.rawQuery)) =
            sortPairs (trackFilter u.rawQuery) := by
          have h1 : trackFilter (encodeQuery (trackFilter u.rawQuery)) =
              (parseQueryModel (encodeQuery (trackFilter u.rawQuery))).filter
                (fun kv => !(isTrackingKey (lowerStr kv.1))) := rfl
          rw [h1, parseQueryModel_encode _ hpct]
          refine List.filter_eq_self.mpr ?_
          intro x hx
          have hxq := mem_sortPairs _ x hx
          unfold trackFilter at hxq
          simpa using List.of_mem_filter hxq
        have hsortne : sortPairs (trackFilter u.rawQuery) ≠ [] :=
          sortPairs_ne_nil _ hqne
        have hencsort : encodeQuery (sortPairs (trackFilter u.rawQuery)) =
            encodeQuery (trackFilter u.rawQuery) := by
          unfold encodeQuery
          rw [sortPairs_idem]
        have hne2 : (encodeQuery (trackFilter u.rawQuery)).isEmpty = false := by
          have hne9 : encodeQuery (trackFilter u.rawQuery) ≠ [] := by
            intro he
            rw [hrqeq, he] at hrq
            exact hrq rfl
          cases hc : encodeQuery (trackFilter u.rawQuery)
          · exact absurd hc hne9
          · rfl
        have hrawoutv : rawQueryOut v = encodeQuery (trackFilter u.rawQuery) := by
          unfold rawQueryOut
          rw [hvraw]
          rw [hne2]
          dsimp only
          have hne3 : (sortPairs (trackFilter u.rawQuery)).isEmpty = false := by
            cases hs : sortPairs (trackFilter u.rawQuery)
            · exact absurd hs hsortne
            · rfl
          rw [hfilterid, hne3]
          simp only [Bool.false_eq_true, if_false]
          rw [hencsort]
          simp
        rcases queryPartOf_shape u with hQ | hQ
        · rw [hQ] at hr
          exact absurd hr (by simp)
        · rw [hQ]
          unfold queryPartOf
          rw [if_pos]
          · rw [hrawoutv, hrqeq]
          · rw [hrawoutv, hne2]
            simp
  rw [normalizeParsed_decomp v, normalizeParsed_decomp u, hSv, hhostOutv, hPv,
    hQv]

/-- Amended-claim guard for idempotence: the trimmed input either fails to
parse, or parses to a URL whose host contains no bracket character and whose
canonical (lowercased, once-www-stripped) host does not again begin with a
strippable `www.` label.  Inputs outside the guard can lose a second `www.`
label (or a bracket reinterpretation) on the second pass. -/
def idemGuard (s : Str) : Bool :=
  match parseURL (goTrimSpace s) with
  | none => true
  | some u =>
    !(u.host.contains '[') && !(u.host.contains ']') &&
      !((strOf "www.").isPrefixOf (stripHost u) &&
        decide ((stripHost u).length > 4))

/-- C10 (corrected): URL normalization is idempotent on every input inside
the `idemGuard` region: whenever the trimmed input either fails to parse, or
parses to a URL whose host contains no `[` or `]` and whose canonical
(lowercased, once-`www.`-stripped) host does not again begin with a
strippable `www.` label, `Normalize (Normalize s) = Normalize s`.  Outside
the guard the claim is false (see `urlNormalize_idem_counterexample`):
`Normalize` strips exactly one leading `www.` label per pass, so a host
`www.www.example.com` keeps shrinking. -/
theorem urlNormalize_idem (s : Str) (h : idemGuard s = true) :
    urlNormalize (urlNormalize s) = urlNormalize s := by
  unfold idemGuard at h
  split at h
  · rename_i hpar
    have hout : urlNormalize s =
        if (goTrimSpace s).isEmpty then [] else goTrimSpace s := by
      unfold urlNormalize
      dsimp only
      rw [hpar]
    by_cases hemp : (goTrimSpace s).isEmpty = true
    · rw [hout, if_pos hemp]
      rfl
    · rw [hout, if_neg hemp]
      unfold urlNormalize
      dsimp only
      rw [goTrimSpace_idem, hpar, if_neg hemp]
  · rename_i u hpar
    have hlb : '[' ∉ u.host := by
      refine (contains_false_iff _ _).mp ?_
      cases hc : u.host.contains '['
      · rfl
      · rw [hc] at h
        simp at h
    have hrb : ']' ∉ u.host := by
      refine (contains_false_iff _ _).mp ?_
      cases hc : u.host.contains ']'
      · rfl
      · rw [hc] at h
        simp at h
    have hwww : ((strOf "www.").isPrefixOf (stripHost u) &&
        decide ((stripHost u).length > 4)) = false := by
      cases hc : ((strOf "www.").isPrefixOf (stripHost u) &&
          decide ((stripHost u).length > 4))
      · rfl
      · rw [hc] at h
        simp at h
    have htne : ¬ (goTrimSpace s).isEmpty = true := by
      intro he
      have ht0 : goTrimSpace s = [] := by
        cases hgs : goTrimSpace s with
        | nil => rfl
        | cons c cs =>
          rw [hgs] at he
          simp at he
      rw [ht0] at hpar
      rw [show parseURL ([] : Str) = none from rfl] at hpar
      exact Option.noConfusion hpar
    have hout : urlNormalize s = normalizeParsed u := by
      unfold urlNormalize
      dsimp only
      rw [hpar, if_neg htne]
    rw [hout]
    unfold urlNormalize
    dsimp only
    have hts : goTrimSpace (normalizeParsed u) = normalizeParsed u :=
      goTrimSpace_no_space _ (normalizeParsed_no_space _ u hpar)
    rw [hts]
    have hne : ¬ (normalizeParsed u).isEmpty = true := by
      intro he
      have := normalizeParsed_ne_nil u
      cases hc : normalizeParsed u with
      | nil => exact this hc
      | cons c cs =>
        rw [hc] at he
        simp at he
    rw [if_neg hne]
    cases hrepar : parseURL (normalizeParsed u) with
    | none => rfl
    | some v => exact normalizeParsed_reparse _ u v hpar hlb hrb hwww hrepar

set_option maxHeartbeats 2000000 in
theorem urlNormalize_idem_witness :
    idemGuard (strOf "https://www.Example.COM:443/x/?utm_source=a&ref=b#f") =
        true ∧
      urlNormalize (urlNormalize
          (strOf "https://www.Example.COM:443/x/?utm_source=a&ref=b#f")) =
        urlNormalize (strOf "https://www.Example.COM:443/x/?utm_source=a&ref=b#f") :=
  ⟨by decide, urlNormalize_idem _ (by decide)⟩
